import Mathlib

/-!
Verification development for the telesales lead-selection core
(`telesales/rules.py`, `telesales/assign.py`, `telesales/filters.py`,
`telesales/utils.py`).

DataFrames are embedded as Lean lists of records in positional order; the
pipeline hands every frame to these functions with a default `0..n-1`
index (`reset_index(drop=True)` / `ignore_index=True` everywhere), so a
list position corresponds to the pandas row label.  Python `float`
weights are embedded as rationals, Python `int` as `Int`/`Nat` as noted
at each definition.
-/

namespace Telesales

/-! ### Constants (`telesales/constants.py`) -/

def SOURCE_PC : String := "cabal_pc_th"

def SOURCE_MOBILE : String := "cabal_mobile_th"

def WINDOW_HOT : String := "Hot Lead"

def WINDOW_COLD : String := "Cold Lead"

def WINDOW_HIBERNATED : String := "Hibernated"

/-- Window priority list `WINDOW_PRIORITY` from `rules.py`. -/
def WINDOW_PRIORITY : List String := [WINDOW_HOT, WINDOW_COLD, WINDOW_HIBERNATED]

/-- Rank of a window label: `_WINDOW_RANK.get(str(w), 9999)` in
`earlier_window_wins_dedupe` (`rules.py`). -/
def windowRank (w : String) : Nat :=
  if w = WINDOW_HOT then 0
  else if w = WINDOW_COLD then 1
  else if w = WINDOW_HIBERNATED then 2
  else 9999

/-! ### Candidate rows

A candidate row as produced by the loaders and consumed by
`rules.py` / `assign.py`: the columns those modules read. -/

structure Row where
  username : String
  phone : String
  source_key : String
  window_label : String
deriving DecidableEq, Repr

/-- Embedding of `tag_window(df, label)` (`rules.py`): a copy of `df` with
`window_label` set to `label` on every row; empty input yields an empty
frame (which for the list embedding is what the map produces anyway). -/
def tag_window (df : List Row) (label : String) : List Row :=
  df.map (fun r => { r with window_label := label })

/-- Stable sort of `earlier_window_wins_dedupe` realized over the rank
codomain.  `tmp.sort_values(by=["_win_rank"], kind="stable")` is the unique
stable sort by `_win_rank`; since `windowRank` only takes the values
`0, 1, 2, 9999`, that stable sort is exactly the concatenation of the four
rank buckets in ascending rank order, each in input order. -/
def sortByWindowRank (df : List Row) : List Row :=
  (df.filter (fun r => windowRank r.window_label = 0)) ++
  (df.filter (fun r => windowRank r.window_label = 1)) ++
  (df.filter (fun r => windowRank r.window_label = 2)) ++
  (df.filter (fun r => windowRank r.window_label = 9999))

/-- Worker for the `drop_duplicates` embedding: keep a row when its phone
has not been seen before, in input order. -/
def dedupGo : List String → List Row → List Row
  | _, [] => []
  | seen, r :: rs =>
    if r.phone ∈ seen then dedupGo seen rs
    else r :: dedupGo (r.phone :: seen) rs

/-- Embedding of `drop_duplicates(subset=["phone"], keep="first")`: keep the
first row seen for each distinct phone. -/
def dedupByPhoneFirst (df : List Row) : List Row := dedupGo [] df

/-- Embedding of `earlier_window_wins_dedupe(df)` (`rules.py`): rank the
windows, stable-sort by rank, keep the first row per phone, drop the rank
column and reset the index (both no-ops in the list embedding). -/
def earlier_window_wins_dedupe (df : List Row) : List Row :=
  dedupByPhoneFirst (sortByWindowRank df)

/-! ### Uniform re-query (`requery_non_a`, `build_non_a_pool`) -/

/-- Per-window batch map `pools_by_window : Dict[str, List[DataFrame]]`.
Only the three keys of `WINDOW_PRIORITY` are ever read
(`pools_by_window.get(w, [])`), so the map is embedded by its three
relevant entries. -/
structure PoolsByWindow where
  hot : List (List Row)
  cold : List (List Row)
  hib : List (List Row)
deriving Repr

/-- Lookup `pools_by_window.get(w, [])` for the three window keys. -/
def poolsGet (pools : PoolsByWindow) (w : String) : List (List Row) :=
  if w = WINDOW_HOT then pools.hot
  else if w = WINDOW_COLD then pools.cold
  else if w = WINDOW_HIBERNATED then pools.hib
  else []

/-- Frames of one window that survive the
`isinstance(df, pd.DataFrame) and not df.empty` guard. -/
def nonEmptyFrames (frames : List (List Row)) : List (List Row) :=
  frames.filter (fun d => ¬ d = [])

/-- Embedding of `requery_non_a(pools_by_window, target_rows)` (`rules.py`)
with the `for w in WINDOW_PRIORITY` loop unrolled over the fixed
three-element priority list.  `chosen_frames` accumulates the non-empty
frames window by window; after each window the concatenation is deduped,
its size recorded in `counts`, and the loop returns
`deduped.head(int(target_rows))` as soon as the target is reached.
`target_rows` is a `Nat` (the claims about this function only concern
`target_rows ≥ 1`, and `df.head(n)` for `n ≥ 0` is `List.take n`). -/
def requery_non_a (pools : PoolsByWindow) (target_rows : Nat) :
    List Row × List (String × Nat) :=
  let f1 := nonEmptyFrames (poolsGet pools WINDOW_HOT)
  let d1 := earlier_window_wins_dedupe f1.flatten
  let c1 := [(WINDOW_HOT, d1.length)]
  if target_rows ≤ d1.length then (d1.take target_rows, c1) else
  let f2 := f1 ++ nonEmptyFrames (poolsGet pools WINDOW_COLD)
  let d2 := earlier_window_wins_dedupe f2.flatten
  let c2 := c1 ++ [(WINDOW_COLD, d2.length)]
  if target_rows ≤ d2.length then (d2.take target_rows, c2) else
  let f3 := f2 ++ nonEmptyFrames (poolsGet pools WINDOW_HIBERNATED)
  let d3 := earlier_window_wins_dedupe f3.flatten
  let c3 := c2 ++ [(WINDOW_HIBERNATED, d3.length)]
  if target_rows ≤ d3.length then (d3.take target_rows, c3) else
  (d3, c3)

/-- Embedding of `build_non_a_pool` (`rules.py`): a convenience wrapper
around `requery_non_a`. -/
def build_non_a_pool (pools : PoolsByWindow) (target_rows : Nat) :
    List Row × List (String × Nat) :=
  requery_non_a pools target_rows

/-- Deduplicated accumulation after the Hot window of `requery_non_a`. -/
def requeryStage1 (pools : PoolsByWindow) : List Row :=
  earlier_window_wins_dedupe (nonEmptyFrames pools.hot).flatten

/-- Deduplicated accumulation after the Cold window of `requery_non_a`. -/
def requeryStage2 (pools : PoolsByWindow) : List Row :=
  earlier_window_wins_dedupe
    (nonEmptyFrames pools.hot ++ nonEmptyFrames pools.cold).flatten

/-- Deduplicated accumulation after the Hibernated window of
`requery_non_a`. -/
def requeryStage3 (pools : PoolsByWindow) : List Row :=
  earlier_window_wins_dedupe
    ((nonEmptyFrames pools.hot ++ nonEmptyFrames pools.cold)
      ++ nonEmptyFrames pools.hib).flatten

/-- Demonstration rows for concrete witnesses: one phone in two windows. -/
def demoHotRow : Row :=
  { username := "u1", phone := "p1", source_key := SOURCE_PC,
    window_label := WINDOW_HOT }

def demoColdRow : Row :=
  { username := "u2", phone := "p1", source_key := SOURCE_MOBILE,
    window_label := WINDOW_COLD }

def demoDf : List Row := [demoColdRow, demoHotRow]

/-! ### Source-first re-query (`rules.py`) -/

/-- Embedding of `_normalize_mix_local(weights)` (`rules.py`): keep the
positive weights in map order and divide by their sum; a sum of zero (all
entries missing or non-positive) returns the cleaned map itself, which is
then empty.  Python `float` weights are embedded as `ℚ`; the `dict` is an
association list in insertion order. -/
def _normalize_mix_local (weights : List (String × ℚ)) : List (String × ℚ) :=
  let cleaned := weights.filter (fun kv => 0 < kv.2)
  let s := (cleaned.map Prod.snd).sum
  if s ≤ 0 then cleaned else cleaned.map (fun kv => (kv.1, kv.2 / s))

/-- Stable insertion of a keyed rational into a descending-sorted list:
the new element goes before the first entry whose value is not greater,
so earlier input order is preserved among equal values. -/
def insertDescQ (x : String × ℚ) : List (String × ℚ) → List (String × ℚ)
  | [] => [x]
  | y :: ys => if y.2 > x.2 then y :: insertDescQ x ys else x :: y :: ys

/-- Embedding of Python `list.sort(key=lambda x: x[1], reverse=True)`:
a stable descending sort by the rational component. -/
def sortDescQ : List (String × ℚ) → List (String × ℚ)
  | [] => []
  | x :: xs => insertDescQ x (sortDescQ xs)

/-- Embedding of the dict update `base[k] += 1`: increment the entry with
key `k` (the first occurrence; keys are unique in a Python dict). -/
def incKey : List (String × ℤ) → String → List (String × ℤ)
  | [], _ => []
  | kv :: rest, k =>
    if kv.1 = k then (kv.1, kv.2 + 1) :: rest else kv :: incKey rest k

/-- Embedding of `_hamilton_apportion_local(total, weights)` (`rules.py`):
floor allocations plus one extra unit for each of the largest remainders,
until the leftover is spent or the entries run out. -/
def _hamilton_apportion_local (total : ℤ) (weights : List (String × ℚ)) :
    List (String × ℤ) :=
  if total ≤ 0 ∨ weights = [] then weights.map (fun kv => (kv.1, 0))
  else
    let base := weights.map (fun kv => (kv.1, ⌊(total : ℚ) * kv.2⌋))
    let ssum := (base.map Prod.snd).sum
    let rem := weights.map
      (fun kv => (kv.1, (total : ℚ) * kv.2 - ⌊(total : ℚ) * kv.2⌋))
    let leftover := total - ssum
    let remSorted := sortDescQ rem
    ((remSorted.take leftover.toNat).map Prod.fst).foldl incKey base

/-- Embedding of `_filter_by_source(df, source_key)` (`rules.py`). -/
def _filter_by_source (df : List Row) (source_key : String) : List Row :=
  df.filter (fun r => r.source_key = source_key)

/-- Remaining frames of one source, indexed by window
(`remaining[s][w]` of `requery_non_a_source_first`). -/
structure WinFrames where
  hot : List Row
  cold : List Row
  hib : List Row
deriving Repr, DecidableEq

/-- Initial remaining frames of a source: the window's frames concatenated
and filtered by `source_key`. -/
def initWinFrames (pools : PoolsByWindow) (s : String) : WinFrames :=
  { hot := _filter_by_source (poolsGet pools WINDOW_HOT).flatten s,
    cold := _filter_by_source (poolsGet pools WINDOW_COLD).flatten s,
    hib := _filter_by_source (poolsGet pools WINDOW_HIBERNATED).flatten s }

/-- Embedding of `_drop_taken_from_remaining(phones)`: remove the taken
phones from the remaining frames of every window. -/
def dropPhonesWF (wf : WinFrames) (phones : List String) : WinFrames :=
  { hot := wf.hot.filter (fun r => ¬ r.phone ∈ phones),
    cold := wf.cold.filter (fun r => ¬ r.phone ∈ phones),
    hib := wf.hib.filter (fun r => ¬ r.phone ∈ phones) }

/-- Body of the per-source window loop of `requery_non_a_source_first`:
skip when the quota is already met or the window frame is empty, otherwise
merge, dedupe, and keep the head up to the quota. -/
def fillStep (need : ℤ) (parts : List Row) (dfw : List Row) : List Row :=
  if need ≤ (parts.length : ℤ) then parts
  else if dfw = [] then parts
  else
    let deduped := earlier_window_wins_dedupe (parts ++ dfw)
    deduped.take (min need (deduped.length : ℤ)).toNat

/-- Per-source fill of `requery_non_a_source_first`: pull Hot, then Cold,
then Hibernated frames up to the source quota. -/
def fillSource (wf : WinFrames) (need : ℤ) : List Row :=
  fillStep need (fillStep need (fillStep need [] wf.hot) wf.cold) wf.hib

/-- Lookup `remaining[s]` in the per-source association list. -/
def lookupWF (rem : List (String × WinFrames)) (s : String) : WinFrames :=
  match rem.find? (fun kv => kv.1 = s) with
  | some kv => kv.2
  | none => ⟨[], [], []⟩

/-- Lookup `quotas.get(s, 0)`. -/
def lookupQuota (quotas : List (String × ℤ)) (s : String) : ℤ :=
  match quotas.find? (fun kv => kv.1 = s) with
  | some kv => kv.2
  | none => 0

/-- Embedding of `requery_non_a_source_first(pools_by_window, mix_weights,
target_rows)` (`rules.py`): per-source quota fill in window order with
cross-source phone removal, then borrowing from the remaining frames in
window order when short, plus the per-window diagnostic counts. -/
def requery_non_a_source_first (pools : PoolsByWindow)
    (mix_weights : List (String × ℚ)) (target_rows : ℤ) :
    List Row × List (String × ℤ) :=
  let weights := _normalize_mix_local mix_weights
  let quotas := _hamilton_apportion_local target_rows weights
  let sources := weights.map Prod.fst
  let rem0 : List (String × WinFrames) :=
    sources.map (fun s => (s, initWinFrames pools s))
  let st := sources.foldl
    (fun (st : List (String × WinFrames) × List (List Row)) s =>
      let need := lookupQuota quotas s
      if need ≤ 0 then st
      else
        let chosen := fillSource (lookupWF st.1 s) need
        if chosen = [] then st
        else (st.1.map (fun kv => (kv.1, dropPhonesWF kv.2 (chosen.map Row.phone))),
              st.2 ++ [chosen]))
    (rem0, [])
  let combined0 := st.2.flatten
  let combined1 :=
    if combined0 = [] then combined0 else earlier_window_wins_dedupe combined0
  let combined2 :=
    if (combined1.length : ℤ) < target_rows then
      let borrowFrames :=
        (st.1.map (fun kv => kv.2.hot)).filter (fun d => ¬ d = []) ++
        (st.1.map (fun kv => kv.2.cold)).filter (fun d => ¬ d = []) ++
        (st.1.map (fun kv => kv.2.hib)).filter (fun d => ¬ d = [])
      if borrowFrames = [] then combined1
      else (earlier_window_wins_dedupe
        (combined1 ++ borrowFrames.flatten)).take target_rows.toNat
    else combined1
  (combined2,
    WINDOW_PRIORITY.map (fun w =>
      (w, (combined2.countP (fun r => r.window_label = w) : ℤ))))

/-- Concrete PC rows for the source-first scenario of the spec: 5 Hot PC
candidates with distinct phones. -/
def c4PcRows : List Row :=
  (List.range 5).map (fun i =>
    { username := "pcu", phone := "pc" ++ toString i,
      source_key := SOURCE_PC, window_label := "" })

/-- Concrete Mobile rows for the source-first scenario of the spec: 95 Hot
Mobile candidates with distinct phones. -/
def c4MobRows : List Row :=
  (List.range 95).map (fun i =>
    { username := "mbu", phone := "mb" ++ toString i,
      source_key := SOURCE_MOBILE, window_label := "" })

/-- Hot-only pools of the source-first scenario. -/
def c4Pools : PoolsByWindow :=
  { hot := [tag_window c4PcRows WINDOW_HOT, tag_window c4MobRows WINDOW_HOT],
    cold := [], hib := [] }

/-- Mix weights 50/50 of the source-first scenario. -/
def c4Mix : List (String × ℚ) := [(SOURCE_PC, 1/2), (SOURCE_MOBILE, 1/2)]

/-! ### Mix-aware assignment (`telesales/assign.py`) -/

/-- Embedding of `_normalize_mix(mix)` (`assign.py`): drop non-positive
weights, then divide by the sum; if nothing positive remains, default to
0.5/0.5 for PC/Mobile. -/
def _normalize_mix (mix : List (String × ℚ)) : List (String × ℚ) :=
  let cleaned := mix.filter (fun kv => 0 < kv.2)
  let total := (cleaned.map Prod.snd).sum
  if total ≤ 0 then [(SOURCE_PC, (1 : ℚ)/2), (SOURCE_MOBILE, (1 : ℚ)/2)]
  else cleaned.map (fun kv => (kv.1, kv.2 / total))

/-- Embedding of `_take_first(df, n)` (`assign.py`): `(df.head(n),
df.iloc[len(head):])` with `n` clamped to `max(0, int(n))`. -/
def _take_first (df : List Row) (n : ℤ) : List Row × List Row :=
  let m := max 0 n
  if df = [] ∨ m = 0 then ([], df)
  else (df.take m.toNat, df.drop m.toNat)

/-- Per-caller desired counts of `assign_mix_aware` (`assign.py`, loop
body): floor of `per_caller_target * weight` per source, then the slots
lost to flooring are returned one each to the sources with the largest
remainders (stable descending sort, as in the Python `list.sort` with
`reverse=True`). -/
def desiredCounts (per_caller_target : ℤ) (weights : List (String × ℚ)) :
    List (String × ℤ) :=
  let base := weights.map
    (fun kv => (kv.1, ⌊(per_caller_target : ℚ) * kv.2⌋))
  let tracker := weights.map
    (fun kv => (kv.1,
      (per_caller_target : ℚ) * kv.2 - ⌊(per_caller_target : ℚ) * kv.2⌋))
  let remaining_slots := per_caller_target - (base.map Prod.snd).sum
  if 0 < remaining_slots then
    (((sortDescQ tracker).take remaining_slots.toNat).map Prod.fst).foldl
      incKey base
  else base

/-- Lookup `remaining_by_src.get(src, pd.DataFrame())`. -/
def lookupRows (rem : List (String × List Row)) (s : String) : List Row :=
  match rem.find? (fun kv => kv.1 = s) with
  | some kv => kv.2
  | none => []

/-- Embedding of the dict update `remaining_by_src[src] = tail` (the key
is always present in the reachable states). -/
def updateRows : List (String × List Row) → String → List Row →
    List (String × List Row)
  | [], _, _ => []
  | kv :: rest, k, v =>
    if kv.1 = k then (k, v) :: rest else kv :: updateRows rest k v

/-- State of the caller loop of `assign_mix_aware`: the remaining rows per
source, the remaining unknown-source rows, and the assigned frames (each
row paired with its `telesale` value). -/
structure AssignSt where
  rem : List (String × List Row)
  unknown : List Row
  frames : List (List (Row × String))

/-- One step of the desired-count pull loop of `assign_mix_aware`
(`for src, need in desired.items()`): take the head of the source bucket,
tag it with the caller and update the bucket; an empty head leaves the
state unchanged. -/
def pullStep (caller : String)
    (st : List (String × List Row) × List (List (Row × String)))
    (kv : String × ℤ) :
    List (String × List Row) × List (List (Row × String)) :=
  let hd := (_take_first (lookupRows st.1 kv.1) kv.2).1
  let tl := (_take_first (lookupRows st.1 kv.1) kv.2).2
  if hd = [] then st
  else (updateRows st.1 kv.1 tl,
        st.2 ++ [hd.map (fun r => (r, caller))])

/-- Desired-count pull loop of `assign_mix_aware`. -/
def pullPhase (caller : String) (desired : List (String × ℤ))
    (rem : List (String × List Row)) :
    List (String × List Row) × List (List (Row × String)) :=
  desired.foldl (pullStep caller) (rem, [])

/-- One step of the source top-up loop of `assign_mix_aware`
(`for src in weights.keys()` when still short): pull up to the current
shortfall from the source bucket.  State: remaining buckets, taken parts,
current shortfall. -/
def topupStep (caller : String)
    (st : List (String × List Row) × List (List (Row × String)) × ℤ)
    (s : String) :
    List (String × List Row) × List (List (Row × String)) × ℤ :=
  if st.2.2 ≤ 0 then st
  else
    let add := (_take_first (lookupRows st.1 s) st.2.2).1
    let tl2 := (_take_first (lookupRows st.1 s) st.2.2).2
    if add = [] then st
    else (updateRows st.1 s tl2,
          st.2.1 ++ [add.map (fun r => (r, caller))],
          st.2.2 - (add.length : ℤ))

/-- Source top-up loop of `assign_mix_aware`. -/
def sourceTopUp (caller : String) (srcKeys : List String)
    (st : List (String × List Row) × List (List (Row × String)) × ℤ) :
    List (String × List Row) × List (List (Row × String)) × ℤ :=
  srcKeys.foldl (topupStep caller) st

/-- Count of rows held in the remaining per-source buckets. -/
def remTotal (rem : List (String × List Row)) : Nat :=
  (rem.map (fun kv => kv.2.length)).sum

/-- Count of rows held in a list of taken frames. -/
def framesLen {α : Type} (fs : List (List α)) : Nat :=
  (fs.map List.length).sum

/-- One iteration of the `for caller in callers` loop of
`assign_mix_aware`: desired pull per source, then unknown-bucket top-up,
then source top-up, then the concatenated taken parts are appended as one
assigned frame (when non-empty). -/
def callerStep (weights : List (String × ℚ)) (per_caller_target : ℤ)
    (st : AssignSt) (caller : String) : AssignSt :=
  let desired := desiredCounts per_caller_target weights
  let pulled := pullPhase caller desired st.rem
  let got := ((pulled.2.map List.length).sum : ℤ)
  let short := per_caller_target - got
  let afterUnknown :=
    if 0 < short then
      if ¬ st.unknown = [] then
        let add := (_take_first st.unknown short).1
        let unk := (_take_first st.unknown short).2
        if add = [] then (unk, pulled.2, short)
        else (unk, pulled.2 ++ [add.map (fun r => (r, caller))],
              short - (add.length : ℤ))
      else (st.unknown, pulled.2, short)
    else (st.unknown, pulled.2, short)
  let afterSources :=
    if 0 < short ∧ 0 < afterUnknown.2.2 then
      sourceTopUp caller (weights.map Prod.fst)
        (pulled.1, afterUnknown.2.1, afterUnknown.2.2)
    else (pulled.1, afterUnknown.2.1, afterUnknown.2.2)
  { rem := afterSources.1,
    unknown := afterUnknown.1,
    frames :=
      if afterSources.2.1 = [] then st.frames
      else st.frames ++ [afterSources.2.1.flatten] }

/-- Positional write-back `out.loc[assigned_df.index, "telesale"] =
assigned_df["telesale"].values`: the concatenated assigned frame carries
the fresh index `0..M-1` (`ignore_index=True`), and the pool carries the
default `0..n-1` index, so row `i` of the pool receives the `i`-th taken
telesale value and every later row keeps the empty string (`M ≤ n` holds
in every reachable state, so the pandas label lookup never fails). -/
def writeBack : List Row → List String → List (Row × String)
  | [], _ => []
  | r :: rs, [] => (r, "") :: writeBack rs []
  | r :: rs, t :: ts => (r, t) :: writeBack rs ts

/-- Truthiness of `str(c).strip()` in the caller-cleaning step
`callers = [c for c in callers if str(c).strip()]` (`assign.py`):
`strip` removes exactly the whitespace at both ends, so the stripped
string is truthy (non-empty) iff the name contains some non-whitespace
character. -/
def callerNonBlank (c : String) : Bool :=
  c.toList.any (fun ch => !ch.isWhitespace)

/-- Embedding of `assign_mix_aware(non_a_rows, callers,
per_caller_target, mix_weights)` (`assign.py`). -/
def assign_mix_aware (non_a_rows : List Row) (callers0 : List String)
    (per_caller_target : ℤ) (mix_weights : List (String × ℚ)) :
    List (Row × String) :=
  if non_a_rows = [] then []
  else
    let callers := callers0.filter (fun c => callerNonBlank c)
    if callers = [] ∨ per_caller_target ≤ 0 then
      non_a_rows.map (fun r => (r, ""))
    else
      let weights := _normalize_mix mix_weights
      let by_src := (weights.map Prod.fst).map
        (fun s => (s, non_a_rows.filter (fun r => r.source_key = s)))
      let unknown0 := non_a_rows.filter
        (fun r => ¬ r.source_key ∈ weights.map Prod.fst)
      let final := callers.foldl (callerStep weights per_caller_target)
        { rem := by_src, unknown := unknown0, frames := [] }
      writeBack non_a_rows (final.frames.flatten.map Prod.snd)

/-- Initial state of the caller loop of `assign_mix_aware`: the
per-source buckets (`by_src`, in weight-key order), the unknown-source
catch-all bucket, and no assigned frames yet. -/
def assignInit (non_a_rows : List Row) (weights : List (String × ℚ)) :
    AssignSt :=
  { rem := (weights.map Prod.fst).map
      (fun s => (s, non_a_rows.filter (fun r => r.source_key = s))),
    unknown := non_a_rows.filter
      (fun r => ¬ r.source_key ∈ weights.map Prod.fst),
    frames := [] }

/-- The `telesale` column of the concatenated `assigned_df`
(`assign.py`, `assigned_df["telesale"].values`): the caller tags of the
taken rows in taken order — exactly the values written positionally into
the head of the output by `out.loc[assigned_df.index, "telesale"]`. -/
def assignedTelesales (non_a_rows : List Row) (callers0 : List String)
    (per_caller_target : ℤ) (mix_weights : List (String × ℚ)) :
    List String :=
  let callers := callers0.filter (fun c => callerNonBlank c)
  let weights := _normalize_mix mix_weights
  let final := callers.foldl (callerStep weights per_caller_target)
    (assignInit non_a_rows weights)
  final.frames.flatten.map Prod.snd

/-- A three-row PC-only pool: 3 rows, 2 callers and a per-caller target
of 2 make the supply (3) fall strictly between k·0 and k·target (4). -/
def c1Rows : List Row :=
  [⟨"u1", "0811111111", SOURCE_PC, ""⟩,
   ⟨"u2", "0822222222", SOURCE_PC, ""⟩,
   ⟨"u3", "0833333333", SOURCE_PC, ""⟩]

/-! ### Phone normalization and filter keys (`utils.py`, `filters.py`) -/

/-- Embedding of `normalize_phone(raw)` (`utils.py`):
`re.sub(r"\D+", "", str(raw))`, i.e. keep only the digit characters of
the string form of the value (the inputs here are ASCII, where `\d`
means `0-9`). -/
def normalize_phone (raw : String) : String :=
  String.mk (raw.toList.filter Char.isDigit)

/-- Pool row as read by `apply_filters` (`filters.py`); `result` is
meaningful only when the pool carries a `Result` column (the `hasResult`
flag of the embedding). -/
structure PRow where
  username : String
  phone : String
  source_key : String
  result : String
deriving DecidableEq, Repr

/-- History row of the Compile table as read by `apply_filters`:
`Username`, `Phone Number`, `platform`, `Answer Status`, `Result`,
`Assign Date`. -/
structure CRow where
  username : String
  phone : String
  platform : String
  ans : String
  res : String
  assign : String
deriving DecidableEq, Repr

/-- Blacklist row: `username`, `phone`, `source_key`. -/
structure BRow where
  username : String
  phone : String
  source_key : String
deriving DecidableEq, Repr

/-- Embedding of `_triple_key(df)` (`filters.py`) for a pool row:
`phone + "|" + username + "|" + source_key`, built from the raw column
values with no phone normalization. -/
def tripleKeyP (r : PRow) : String :=
  r.phone ++ "|" ++ r.username ++ "|" ++ r.source_key

/-- Composite key of a Compile row as built in `apply_filters`
(`f"{phone}|{username}|{platform}"`). -/
def tripleKeyC (r : CRow) : String :=
  r.phone ++ "|" ++ r.username ++ "|" ++ r.platform

/-- Embedding of `_triple_key(df)` for a blacklist row. -/
def tripleKeyB (r : BRow) : String :=
  r.phone ++ "|" ++ r.username ++ "|" ++ r.source_key

/-- `UNREACHABLE_ANS_STATUSES` (`filters.py`): Thai answer statuses that
count as unreachable. -/
def UNREACHABLE_ANS_STATUSES : List String :=
  ["ไม่รับสาย", "ติดต่อไม่ได้", "กดตัดสาย", "รับสายไม่สะดวกคุย"]

/-- `ANSWERED_STATUS` (`filters.py`). -/
def ANSWERED_STATUS : String := "รับสาย"

/-- `RESULT_INVALID_NUMBER` (`filters.py`). -/
def RESULT_INVALID_NUMBER : String := "เบอร์เสีย"

/-- `RESULT_NOT_INTERESTED` (`filters.py`). -/
def RESULT_NOT_INTERESTED : String := "ไม่สนใจ"

/-- `RESULT_NOT_OWNER` (`filters.py`). -/
def RESULT_NOT_OWNER : String := "ไม่ใช่เจ้าของไอดี"

/-- The `today_keys` set of `apply_filters` (`filters.py`): when the
Compile table carries an `Assign Date` column, the composite keys of the
Compile rows whose assign date equals today's tab key; otherwise empty.
-/
def todayKeys (comp : List CRow) (hasAssignDate : Bool) (today : String) :
    List String :=
  if hasAssignDate then
    (comp.filter (fun cr => cr.assign = today)).map tripleKeyC
  else []

/-- The Compile rows with an unreachable answer status
(`comp_min[unreachable_mask]` in `apply_filters`); `unreachable_counts`
is empty exactly when this list is empty. -/
def unreachRows (comp : List CRow) : List CRow :=
  comp.filter (fun cr => cr.ans ∈ UNREACHABLE_ANS_STATUSES)

/-- The per-key unreachable count joined onto a pool row in
`apply_filters` (`groupby(...).size()` merged on the composite key,
missing keys filled with 0). -/
def unreachCount (comp : List CRow) (key : String) : ℕ :=
  ((unreachRows comp).filter (fun cr => tripleKeyC cr = key)).length

/-- The `answered_keys` set of `apply_filters`: composite keys of
Compile rows answered this month. -/
def answeredKeys (comp : List CRow) : List String :=
  (comp.filter (fun cr => cr.ans = ANSWERED_STATUS)).map tripleKeyC

/-- The `not_interested_keys` set of `apply_filters`: composite keys of
Compile rows whose result is "not interested". -/
def notInterestedKeys (comp : List CRow) : List String :=
  (comp.filter (fun cr => cr.res = RESULT_NOT_INTERESTED)).map tripleKeyC

/-- Per-row value of the `keep` mask of `apply_filters` (`filters.py`):
`keep` starts true and each enabled rule is and-ed on in order.  The
rule conditions are row-independent, mirroring the code exactly: the
blacklist rule runs when the blacklist is non-empty; the Compile rules
run when the Compile table is non-empty (today-idempotency when its key
set is non-empty, unreachable when the toggle is on and some Compile row
is unreachable, answered / not-interested when the toggle is on and the
key set is non-empty — the code builds the key set only when the toggle
is on, so the combined condition is the toggle together with
non-emptiness); the invalid-number and not-owner rules run when their
toggle is on and the pool has a `Result` column; the redeemed rule runs
when its toggle is on and the redeemed set is non-empty. -/
def rowKeep (hasResult : Bool) (comp : List CRow) (hasAssignDate : Bool)
    (bl : List BRow) (redeemed : List String) (today : String)
    (drop_unreachable_repeat : Bool) (unreachable_min_count : ℤ)
    (drop_answered_this_month : Bool) (drop_invalid_number : Bool)
    (drop_not_interested_this_month : Bool)
    (drop_not_owner_as_blacklist : Bool) (drop_redeemed_today : Bool)
    (r : PRow) : Bool :=
  let k0 := true
  let k1 := if ¬ bl = [] then
      k0 && decide (¬ tripleKeyP r ∈ bl.map tripleKeyB)
    else k0
  let k2 := if ¬ comp = [] then
      let ka := if ¬ todayKeys comp hasAssignDate today = [] then
          k1 && decide (¬ tripleKeyP r ∈ todayKeys comp hasAssignDate today)
        else k1
      let kb := if drop_unreachable_repeat = true
          ∧ ¬ unreachRows comp = [] then
          ka && decide ((unreachCount comp (tripleKeyP r) : ℤ)
            < unreachable_min_count)
        else ka
      let kc := if drop_answered_this_month = true
          ∧ ¬ answeredKeys comp = [] then
          kb && decide (¬ tripleKeyP r ∈ answeredKeys comp)
        else kb
      let kd := if drop_not_interested_this_month = true
          ∧ ¬ notInterestedKeys comp = [] then
          kc && decide (¬ tripleKeyP r ∈ notInterestedKeys comp)
        else kc
      kd
    else k1
  let k3 := if drop_invalid_number = true ∧ hasResult = true then
      k2 && decide (¬ r.result = RESULT_INVALID_NUMBER)
    else k2
  let k4 := if drop_not_owner_as_blacklist = true ∧ hasResult = true then
      k3 && decide (¬ r.result = RESULT_NOT_OWNER)
    else k3
  let k5 := if drop_redeemed_today = true ∧ ¬ redeemed = [] then
      k4 && decide (¬ r.username ∈ redeemed)
    else k4
  k5

/-- Embedding of `apply_filters(pool_df, ...)` (`filters.py`): an empty
pool is returned unchanged; otherwise the boolean `keep` mask (one value
per pool row, in row order) selects the surviving rows
(`df[keep].reset_index(drop=True)`), preserving their relative order. An
absent optional input is embedded as the empty table / empty set, which
is exactly how the code sees it after `_ensure_df` /
`set(redeemed_usernames_today or [])`. -/
def apply_filters (pool : List PRow) (hasResult : Bool)
    (comp : List CRow) (hasAssignDate : Bool) (bl : List BRow)
    (redeemed : List String) (today : String)
    (drop_unreachable_repeat : Bool) (unreachable_min_count : ℤ)
    (drop_answered_this_month : Bool) (drop_invalid_number : Bool)
    (drop_not_interested_this_month : Bool)
    (drop_not_owner_as_blacklist : Bool) (drop_redeemed_today : Bool) :
    List PRow :=
  if pool = [] then pool
  else
    let keep := pool.map (rowKeep hasResult comp hasAssignDate bl
      redeemed today drop_unreachable_repeat unreachable_min_count
      drop_answered_this_month drop_invalid_number
      drop_not_interested_this_month drop_not_owner_as_blacklist
      drop_redeemed_today)
    ((pool.zip keep).filter (fun pb => pb.2)).map Prod.fst

/-- Spec-side reading of C8 ("a row survives iff it passes every
enabled rule"): one implication per rule, whose antecedent says the rule
is enabled (toggle on and the needed optional input present). Written
from the spec's words, to be compared with the mask pipeline `rowKeep`
taken from the code. -/
def passesEnabledRules (hasResult : Bool) (comp : List CRow)
    (hasAssignDate : Bool) (bl : List BRow) (redeemed : List String)
    (today : String)
    (drop_unreachable_repeat : Bool) (unreachable_min_count : ℤ)
    (drop_answered_this_month : Bool) (drop_invalid_number : Bool)
    (drop_not_interested_this_month : Bool)
    (drop_not_owner_as_blacklist : Bool) (drop_redeemed_today : Bool)
    (r : PRow) : Prop :=
  (¬ bl = [] → ¬ tripleKeyP r ∈ bl.map tripleKeyB) ∧
  (¬ comp = [] ∧ ¬ todayKeys comp hasAssignDate today = [] →
    ¬ tripleKeyP r ∈ todayKeys comp hasAssignDate today) ∧
  (¬ comp = [] ∧ drop_unreachable_repeat = true
      ∧ ¬ unreachRows comp = [] →
    (unreachCount comp (tripleKeyP r) : ℤ) < unreachable_min_count) ∧
  (¬ comp = [] ∧ drop_answered_this_month = true
      ∧ ¬ answeredKeys comp = [] →
    ¬ tripleKeyP r ∈ answeredKeys comp) ∧
  (¬ comp = [] ∧ drop_not_interested_this_month = true
      ∧ ¬ notInterestedKeys comp = [] →
    ¬ tripleKeyP r ∈ notInterestedKeys comp) ∧
  (drop_invalid_number = true ∧ hasResult = true →
    ¬ r.result = RESULT_INVALID_NUMBER) ∧
  (drop_not_owner_as_blacklist = true ∧ hasResult = true →
    ¬ r.result = RESULT_NOT_OWNER) ∧
  (drop_redeemed_today = true ∧ ¬ redeemed = [] →
    ¬ r.username ∈ redeemed)

instance (hasResult : Bool) (comp : List CRow) (hasAssignDate : Bool)
    (bl : List BRow) (redeemed : List String) (today : String)
    (dur : Bool) (n : ℤ) (dans dinv dni dno dred : Bool) (r : PRow) :
    Decidable (passesEnabledRules hasResult comp hasAssignDate bl
      redeemed today dur n dans dinv dni dno dred r) := by
  unfold passesEnabledRules
  exact inferInstance

/-! ### Theorems: deduplicator lemmas -/

theorem windowRank_cases (w : String) :
    windowRank w = 0 ∨ windowRank w = 1 ∨ windowRank w = 2 ∨ windowRank w = 9999 := by
  unfold windowRank
  split_ifs <;> simp

theorem windowRank_eq_zero {w : String} (h : windowRank w = 0) : w = WINDOW_HOT := by
  unfold windowRank at h
  split_ifs at h with h1 h2 h3
  exact h1

theorem find?_filter_of_imp {α : Type} {p q : α → Bool} (l : List α)
    (h : ∀ x ∈ l, p x = true → q x = true) :
    (l.filter q).find? p = l.find? p := by
  induction l with
  | nil => rfl
  | cons x xs ih =>
    have hxs : ∀ y ∈ xs, p y = true → q y = true :=
      fun y hy => h y (List.mem_cons_of_mem x hy)
    by_cases hq : q x = true
    · rw [List.filter_cons_of_pos hq]
      by_cases hp : p x = true
      · rw [List.find?_cons_of_pos _ hp, List.find?_cons_of_pos _ hp]
      · rw [List.find?_cons_of_neg _ hp, List.find?_cons_of_neg _ hp]
        exact ih hxs
    · have hp : ¬ p x = true := fun hpx => hq (h x (List.mem_cons_self x xs) hpx)
      rw [List.filter_cons_of_neg hq, List.find?_cons_of_neg _ hp]
      exact ih hxs

theorem dedupGo_congr : ∀ (l : List Row) (s₁ s₂ : List String),
    (∀ q, q ∈ s₁ ↔ q ∈ s₂) → dedupGo s₁ l = dedupGo s₂ l := by
  intro l
  induction l with
  | nil => intro s₁ s₂ _; rfl
  | cons r rs ih =>
    intro s₁ s₂ h
    simp only [dedupGo]
    by_cases hm : r.phone ∈ s₁
    · rw [if_pos hm, if_pos ((h _).mp hm)]
      exact ih s₁ s₂ h
    · rw [if_neg hm, if_neg (fun hc => hm ((h _).mpr hc))]
      congr 1
      refine ih _ _ ?_
      intro q
      simp [h q]

theorem dedupGo_insert : ∀ (l : List Row) (seen : List String) (p : String),
    dedupGo (p :: seen) l = dedupGo seen (l.filter (fun x => ¬ x.phone = p)) := by
  intro l
  induction l with
  | nil => intro seen p; rfl
  | cons x xs ih =>
    intro seen p
    by_cases hxp : x.phone = p
    · rw [List.filter_cons_of_neg (by simpa using hxp)]
      simp only [dedupGo]
      rw [if_pos (by simp [hxp])]
      exact ih seen p
    · rw [List.filter_cons_of_pos (by simpa using hxp)]
      simp only [dedupGo]
      by_cases hxs : x.phone ∈ seen
      · rw [if_pos (by simp [hxs]), if_pos hxs]
        exact ih seen p
      · rw [if_neg (by simp [hxp, hxs]), if_neg hxs]
        congr 1
        rw [← ih (x.phone :: seen) p]
        refine dedupGo_congr xs _ _ ?_
        intro q
        simp only [List.mem_cons]
        tauto

theorem dedup_nil : dedupByPhoneFirst [] = [] := rfl

/-- Recursion equation of the deduplicator: the head row survives and all
later rows with its phone are discarded. -/
theorem dedup_cons (r : Row) (rs : List Row) :
    dedupByPhoneFirst (r :: rs)
      = r :: dedupByPhoneFirst (rs.filter (fun x => ¬ x.phone = r.phone)) := by
  unfold dedupByPhoneFirst
  simp only [dedupGo]
  rw [if_neg (List.not_mem_nil _)]
  congr 1
  exact dedupGo_insert rs [] r.phone

/-- Induction principle following the recursion equation `dedup_cons`. -/
theorem dedup_induction (motive : List Row → Prop) (h0 : motive [])
    (h1 : ∀ r rs, motive (rs.filter (fun x => ¬ x.phone = r.phone)) →
      motive (r :: rs)) :
    ∀ l, motive l := by
  have key : ∀ n (l : List Row), l.length ≤ n → motive l := by
    intro n
    induction n with
    | zero =>
      intro l hl
      rw [List.length_eq_zero.mp (Nat.le_zero.mp hl)]
      exact h0
    | succ n ih =>
      intro l hl
      cases l with
      | nil => exact h0
      | cons r rs =>
        refine h1 r rs (ih _ ?_)
        have := List.length_filter_le (fun x => ¬ x.phone = r.phone) rs
        simp only [List.length_cons] at hl
        omega
  exact fun l => key l.length l le_rfl

theorem dedup_subset : ∀ l : List Row, ∀ r ∈ dedupByPhoneFirst l, r ∈ l := by
  intro l
  induction l using dedup_induction with
  | h0 => simp [dedup_nil]
  | h1 r rs ih =>
    intro x hx
    rw [dedup_cons] at hx
    simp only [List.mem_cons] at hx
    rcases hx with hx | hx
    · exact hx ▸ List.mem_cons_self r rs
    · exact List.mem_cons_of_mem r (List.mem_of_mem_filter (ih x hx))

theorem dedup_find? : ∀ l : List Row, ∀ r' ∈ dedupByPhoneFirst l,
    l.find? (fun x => x.phone = r'.phone) = some r' := by
  intro l
  induction l using dedup_induction with
  | h0 => simp [dedup_nil]
  | h1 r rs ih =>
    intro r' hr'
    rw [dedup_cons] at hr'
    simp only [List.mem_cons] at hr'
    rcases hr' with hr' | hr'
    · subst hr'
      exact List.find?_cons_of_pos _ (by simp)
    · have hmemf : r' ∈ rs.filter (fun x => ¬ x.phone = r.phone) :=
        dedup_subset _ r' hr'
      have hne : ¬ r'.phone = r.phone := by
        simpa using List.of_mem_filter hmemf
      have hcons : ¬ (fun x : Row => decide (x.phone = r'.phone)) r = true := by
        simp only [decide_eq_true_eq]
        exact fun h => hne h.symm
      rw [show List.find? (fun x => decide (x.phone = r'.phone)) (r :: rs)
            = List.find? (fun x => decide (x.phone = r'.phone)) rs from
          List.find?_cons_of_neg rs hcons]
      have himp : ∀ x ∈ rs, (fun x : Row => decide (x.phone = r'.phone)) x = true →
          (fun x : Row => decide (¬ x.phone = r.phone)) x = true := by
        intro x _ hx
        simp only [decide_eq_true_eq] at hx ⊢
        rw [hx]
        exact hne
      rw [← find?_filter_of_imp rs himp]
      exact ih r' hr'

theorem dedup_phones_nodup : ∀ l : List Row,
    ((dedupByPhoneFirst l).map Row.phone).Nodup := by
  intro l
  induction l using dedup_induction with
  | h0 => simp [dedup_nil]
  | h1 r rs ih =>
    rw [dedup_cons]
    simp only [List.map_cons, List.nodup_cons]
    refine ⟨?_, ih⟩
    intro hmem
    rcases List.mem_map.mp hmem with ⟨x, hx, hxp⟩
    have hne : ¬ x.phone = r.phone := by
      simpa using List.of_mem_filter (dedup_subset _ x hx)
    exact hne (by rw [hxp])

theorem dedup_mem_phone : ∀ (l : List Row) (p : String),
    p ∈ (dedupByPhoneFirst l).map Row.phone ↔ p ∈ l.map Row.phone := by
  intro l
  induction l using dedup_induction with
  | h0 => simp [dedup_nil]
  | h1 r rs ih =>
    intro p
    rw [dedup_cons]
    simp only [List.map_cons, List.mem_cons]
    rw [ih p]
    constructor
    · rintro (h | h)
      · exact Or.inl h
      · rcases List.mem_map.mp h with ⟨x, hx, hxp⟩
        exact Or.inr (List.mem_map.mpr ⟨x, List.mem_of_mem_filter hx, hxp⟩)
    · rintro (h | h)
      · exact Or.inl h
      · by_cases hp : p = r.phone
        · exact Or.inl hp
        · rcases List.mem_map.mp h with ⟨x, hx, hxp⟩
          refine Or.inr (List.mem_map.mpr ⟨x, List.mem_filter.mpr ⟨hx, ?_⟩, hxp⟩)
          simp only [decide_eq_true_eq]
          rw [hxp]
          exact hp

theorem mem_sortByWindowRank {r : Row} {df : List Row} :
    r ∈ sortByWindowRank df ↔ r ∈ df := by
  unfold sortByWindowRank
  simp only [List.mem_append, List.mem_filter]
  constructor
  · rintro (((⟨h, _⟩ | ⟨h, _⟩) | ⟨h, _⟩) | ⟨h, _⟩) <;> exact h
  · intro h
    rcases windowRank_cases r.window_label with hr | hr | hr | hr <;> simp [h, hr]

theorem mem_phone_sortByWindowRank {p : String} {df : List Row} :
    p ∈ (sortByWindowRank df).map Row.phone ↔ p ∈ df.map Row.phone := by
  simp only [List.mem_map]
  exact ⟨fun ⟨x, hx, hxp⟩ => ⟨x, mem_sortByWindowRank.mp hx, hxp⟩,
    fun ⟨x, hx, hxp⟩ => ⟨x, mem_sortByWindowRank.mpr hx, hxp⟩⟩

theorem find?_eq_none_of_none_matches {α : Type} {p : α → Bool} {l : List α}
    (h : ∀ x ∈ l, ¬ p x = true) : l.find? p = none :=
  List.find?_eq_none.mpr h

/-- Helper for the stability statement: if every row of `df` carrying phone
`p` sits in the window of rank `k`, then searching the rank-sorted frame for
phone `p` is the same as searching the original frame. -/
theorem sorted_find?_same_window {df : List Row} {p : String} {k : Nat}
    (hk : k = 0 ∨ k = 1 ∨ k = 2 ∨ k = 9999)
    (hW : ∀ r ∈ df, r.phone = p → windowRank r.window_label = k) :
    (sortByWindowRank df).find? (fun x => x.phone = p)
      = df.find? (fun x => x.phone = p) := by
  unfold sortByWindowRank
  have hbucket : ∀ j : Nat, ¬ j = k →
      (df.filter (fun r => windowRank r.window_label = j)).find?
        (fun x => x.phone = p) = none := by
    intro j hj
    apply find?_eq_none_of_none_matches
    intro x hx hpx
    have hxj : windowRank x.window_label = j := by
      have := List.of_mem_filter hx
      simpa using this
    have hxk : windowRank x.window_label = k :=
      hW x (List.mem_of_mem_filter hx) (by simpa using hpx)
    exact hj (hxj ▸ hxk)
  have hmain : (df.filter (fun r => windowRank r.window_label = k)).find?
      (fun x => x.phone = p) = df.find? (fun x => x.phone = p) := by
    apply find?_filter_of_imp
    intro x hx hpx
    simpa using hW x hx (by simpa using hpx)
  rw [List.find?_append, List.find?_append, List.find?_append]
  rcases hk with hk | hk | hk | hk <;> subst hk
  · rw [hmain, hbucket 1 (by decide), hbucket 2 (by decide), hbucket 9999 (by decide)]
    simp
  · rw [hmain, hbucket 0 (by decide), hbucket 2 (by decide), hbucket 9999 (by decide)]
    simp
  · rw [hmain, hbucket 0 (by decide), hbucket 1 (by decide), hbucket 9999 (by decide)]
    simp
  · rw [hmain, hbucket 0 (by decide), hbucket 1 (by decide), hbucket 2 (by decide)]
    simp

/-- C5: `earlier_window_wins_dedupe` returns exactly one row per distinct
phone number; for a phone present in both a Hot-tagged and a Cold-tagged
row the surviving row is the Hot-tagged one; and when all rows of a phone
sit in the same window, the first such row in input order survives (the
sort by window rank is stable). -/
theorem C5_earlier_window_wins_dedupe (df : List Row) :
    (((earlier_window_wins_dedupe df).map Row.phone).Nodup ∧
      ∀ p : String, p ∈ (earlier_window_wins_dedupe df).map Row.phone ↔
        p ∈ df.map Row.phone) ∧
    (∀ p : String,
      (∃ r ∈ df, r.phone = p ∧ r.window_label = WINDOW_HOT) →
      (∃ r ∈ df, r.phone = p ∧ r.window_label = WINDOW_COLD) →
      ∀ r' ∈ earlier_window_wins_dedupe df, r'.phone = p →
        r'.window_label = WINDOW_HOT) ∧
    (∀ (p W : String), (∀ r ∈ df, r.phone = p → r.window_label = W) →
      ∀ r' ∈ earlier_window_wins_dedupe df, r'.phone = p →
        df.find? (fun x => x.phone = p) = some r') := by
  refine ⟨⟨dedup_phones_nodup _, ?_⟩, ?_, ?_⟩
  · intro p
    exact (dedup_mem_phone _ p).trans mem_phone_sortByWindowRank
  · rintro p ⟨h, hmem, hp, hlab⟩ _ r' hr' hp'
    have hfind := dedup_find? _ r' hr'
    rw [hp'] at hfind
    have hb0 : h ∈ df.filter (fun r => windowRank r.window_label = 0) :=
      List.mem_filter.mpr ⟨hmem, by simp [hlab, windowRank]⟩
    have hsome : ∃ x, (df.filter (fun r => windowRank r.window_label = 0)).find?
        (fun x => x.phone = p) = some x := by
      rw [← Option.isSome_iff_exists]
      rw [List.find?_isSome]
      exact ⟨h, hb0, by simp [hp]⟩
    rcases hsome with ⟨x0, hx0⟩
    have hchain : (sortByWindowRank df).find? (fun x => x.phone = p) = some x0 := by
      unfold sortByWindowRank
      rw [List.find?_append, List.find?_append, List.find?_append, hx0]
      rfl
    rw [hchain] at hfind
    have hx0r : x0 = r' := Option.some_injective _ hfind
    subst hx0r
    have hrank : windowRank x0.window_label = 0 := by
      have := List.of_mem_filter (List.mem_of_find?_eq_some hx0
        (l := df.filter (fun r => windowRank r.window_label = 0)))
      simpa using this
    exact windowRank_eq_zero hrank
  · intro p W hW r' hr' hp'
    have hfind := dedup_find? _ r' hr'
    rw [hp'] at hfind
    rw [← sorted_find?_same_window (windowRank_cases W)
      (fun r hr hrp => by rw [hW r hr hrp])]
    exact hfind

theorem C5_earlier_window_wins_dedupe_witness :
    ((∃ r ∈ demoDf, r.phone = "p1" ∧ r.window_label = WINDOW_HOT) ∧
      (∃ r ∈ demoDf, r.phone = "p1" ∧ r.window_label = WINDOW_COLD) ∧
      demoHotRow ∈ earlier_window_wins_dedupe demoDf ∧
      demoHotRow.phone = "p1") ∧
    demoHotRow.window_label = WINDOW_HOT :=
  ⟨⟨by decide, by decide, by decide, by decide⟩,
    (C5_earlier_window_wins_dedupe demoDf).2.1 "p1" (by decide) (by decide)
      demoHotRow (by decide) (by decide)⟩

/-! ### Lemmas and claim C3 about the uniform re-query -/

theorem poolsGet_hot (p : PoolsByWindow) : poolsGet p WINDOW_HOT = p.hot := by
  unfold poolsGet
  rw [if_pos rfl]

theorem poolsGet_cold (p : PoolsByWindow) : poolsGet p WINDOW_COLD = p.cold := by
  unfold poolsGet
  rw [if_neg (by decide), if_pos rfl]

theorem poolsGet_hib (p : PoolsByWindow) : poolsGet p WINDOW_HIBERNATED = p.hib := by
  unfold poolsGet
  rw [if_neg (by decide), if_neg (by decide), if_pos rfl]

theorem nonEmptyFrames_flatten (fs : List (List Row)) :
    (nonEmptyFrames fs).flatten = fs.flatten := by
  induction fs with
  | nil => rfl
  | cons f fs ih =>
    unfold nonEmptyFrames at *
    by_cases hf : f = []
    · subst hf
      rw [List.filter_cons_of_neg (by simp)]
      simpa using ih
    · rw [List.filter_cons_of_pos (by simpa using hf)]
      simp only [List.flatten_cons]
      rw [ih]

theorem mem_of_mem_dedupe {r : Row} {df : List Row}
    (h : r ∈ earlier_window_wins_dedupe df) : r ∈ df :=
  mem_sortByWindowRank.mp (dedup_subset _ r h)

theorem requery_non_a_eq_stages (pools : PoolsByWindow) (t : Nat) :
    requery_non_a pools t =
      if t ≤ (requeryStage1 pools).length then
        ((requeryStage1 pools).take t,
          [(WINDOW_HOT, (requeryStage1 pools).length)])
      else if t ≤ (requeryStage2 pools).length then
        ((requeryStage2 pools).take t,
          [(WINDOW_HOT, (requeryStage1 pools).length),
            (WINDOW_COLD, (requeryStage2 pools).length)])
      else if t ≤ (requeryStage3 pools).length then
        ((requeryStage3 pools).take t,
          [(WINDOW_HOT, (requeryStage1 pools).length),
            (WINDOW_COLD, (requeryStage2 pools).length),
            (WINDOW_HIBERNATED, (requeryStage3 pools).length)])
      else
        (requeryStage3 pools,
          [(WINDOW_HOT, (requeryStage1 pools).length),
            (WINDOW_COLD, (requeryStage2 pools).length),
            (WINDOW_HIBERNATED, (requeryStage3 pools).length)]) := by
  unfold requery_non_a requeryStage1 requeryStage2 requeryStage3
  rw [poolsGet_hot, poolsGet_cold, poolsGet_hib]
  rfl

/-- C3: `requery_non_a` (and its wrapper `build_non_a_pool`) returns exactly
`target_rows` rows, truncated in dedupe order, as soon as the deduplicated
accumulation over the windows in priority order reaches the target, and the
batches of every later window are then irrelevant to the result; if all
windows are exhausted while short it returns the whole deduplicated
accumulation; and when the Hot window alone supplies the target, the output
consists of (Hot-tagged) rows of the Hot batches only. -/
theorem C3_requery_non_a (hot cold hib cold' hib' : List (List Row))
    (t : Nat) (ht : 1 ≤ t) :
    (t ≤ (requeryStage1 ⟨hot, cold, hib⟩).length →
      (build_non_a_pool ⟨hot, cold, hib⟩ t).1
          = (requeryStage1 ⟨hot, cold, hib⟩).take t ∧
        (build_non_a_pool ⟨hot, cold, hib⟩ t).1.length = t ∧
        build_non_a_pool ⟨hot, cold, hib⟩ t = build_non_a_pool ⟨hot, cold', hib'⟩ t ∧
        (∀ r ∈ (build_non_a_pool ⟨hot, cold, hib⟩ t).1, r ∈ hot.flatten) ∧
        ((∀ r ∈ hot.flatten, r.window_label = WINDOW_HOT) →
          ∀ r ∈ (build_non_a_pool ⟨hot, cold, hib⟩ t).1,
            r.window_label = WINDOW_HOT)) ∧
    ((requeryStage1 ⟨hot, cold, hib⟩).length < t →
      t ≤ (requeryStage2 ⟨hot, cold, hib⟩).length →
      (build_non_a_pool ⟨hot, cold, hib⟩ t).1
          = (requeryStage2 ⟨hot, cold, hib⟩).take t ∧
        (build_non_a_pool ⟨hot, cold, hib⟩ t).1.length = t ∧
        build_non_a_pool ⟨hot, cold, hib⟩ t = build_non_a_pool ⟨hot, cold, hib'⟩ t) ∧
    ((requeryStage1 ⟨hot, cold, hib⟩).length < t →
      (requeryStage2 ⟨hot, cold, hib⟩).length < t →
      t ≤ (requeryStage3 ⟨hot, cold, hib⟩).length →
      (build_non_a_pool ⟨hot, cold, hib⟩ t).1
          = (requeryStage3 ⟨hot, cold, hib⟩).take t ∧
        (build_non_a_pool ⟨hot, cold, hib⟩ t).1.length = t) ∧
    ((requeryStage1 ⟨hot, cold, hib⟩).length < t →
      (requeryStage2 ⟨hot, cold, hib⟩).length < t →
      (requeryStage3 ⟨hot, cold, hib⟩).length < t →
      (build_non_a_pool ⟨hot, cold, hib⟩ t).1 = requeryStage3 ⟨hot, cold, hib⟩) := by
  have hs1 : requeryStage1 ⟨hot, cold', hib'⟩ = requeryStage1 ⟨hot, cold, hib⟩ := rfl
  have hs1b : requeryStage1 ⟨hot, cold, hib'⟩ = requeryStage1 ⟨hot, cold, hib⟩ := rfl
  have hs2b : requeryStage2 ⟨hot, cold, hib'⟩ = requeryStage2 ⟨hot, cold, hib⟩ := rfl
  refine ⟨?_, ?_, ?_, ?_⟩
  · intro h1
    have hred : build_non_a_pool ⟨hot, cold, hib⟩ t
        = ((requeryStage1 ⟨hot, cold, hib⟩).take t,
            [(WINDOW_HOT, (requeryStage1 ⟨hot, cold, hib⟩).length)]) := by
      unfold build_non_a_pool
      rw [requery_non_a_eq_stages, if_pos h1]
    have hred' : build_non_a_pool ⟨hot, cold', hib'⟩ t
        = ((requeryStage1 ⟨hot, cold, hib⟩).take t,
            [(WINDOW_HOT, (requeryStage1 ⟨hot, cold, hib⟩).length)]) := by
      unfold build_non_a_pool
      rw [requery_non_a_eq_stages, hs1, if_pos h1]
    have hmem : ∀ r ∈ (build_non_a_pool ⟨hot, cold, hib⟩ t).1, r ∈ hot.flatten := by
      intro r hr
      rw [hred] at hr
      have hr1 : r ∈ requeryStage1 ⟨hot, cold, hib⟩ :=
        List.mem_of_mem_take hr
      have := mem_of_mem_dedupe hr1
      rw [nonEmptyFrames_flatten] at this
      exact this
    refine ⟨by rw [hred], ?_, by rw [hred, hred'], hmem, ?_⟩
    · rw [hred]
      simp only [List.length_take]
      omega
    · intro htag r hr
      exact htag r (hmem r hr)
  · intro h1 h2
    have hred : build_non_a_pool ⟨hot, cold, hib⟩ t
        = ((requeryStage2 ⟨hot, cold, hib⟩).take t,
            [(WINDOW_HOT, (requeryStage1 ⟨hot, cold, hib⟩).length),
              (WINDOW_COLD, (requeryStage2 ⟨hot, cold, hib⟩).length)]) := by
      unfold build_non_a_pool
      rw [requery_non_a_eq_stages, if_neg (by omega), if_pos h2]
    have hred' : build_non_a_pool ⟨hot, cold, hib'⟩ t
        = ((requeryStage2 ⟨hot, cold, hib⟩).take t,
            [(WINDOW_HOT, (requeryStage1 ⟨hot, cold, hib⟩).length),
              (WINDOW_COLD, (requeryStage2 ⟨hot, cold, hib⟩).length)]) := by
      unfold build_non_a_pool
      rw [requery_non_a_eq_stages, hs1b, hs2b, if_neg (by omega), if_pos h2]
    refine ⟨by rw [hred], ?_, by rw [hred, hred']⟩
    rw [hred]
    simp only [List.length_take]
    omega
  · intro h1 h2 h3
    have hred : build_non_a_pool ⟨hot, cold, hib⟩ t
        = ((requeryStage3 ⟨hot, cold, hib⟩).take t,
            [(WINDOW_HOT, (requeryStage1 ⟨hot, cold, hib⟩).length),
              (WINDOW_COLD, (requeryStage2 ⟨hot, cold, hib⟩).length),
              (WINDOW_HIBERNATED, (requeryStage3 ⟨hot, cold, hib⟩).length)]) := by
      unfold build_non_a_pool
      rw [requery_non_a_eq_stages, if_neg (by omega), if_neg (by omega), if_pos h3]
    refine ⟨by rw [hred], ?_⟩
    rw [hred]
    simp only [List.length_take]
    omega
  · intro h1 h2 h3
    unfold build_non_a_pool
    rw [requery_non_a_eq_stages, if_neg (by omega), if_neg (by omega),
      if_neg (by omega)]

/-! ### Theorems: source-first selection, mix defaults, filter keys -/

set_option maxRecDepth 10000 in
/-- C4: with Hot batches of 5 PC rows and 95 Mobile rows (distinct
phones), `target_rows = 20` and a 50/50 mix, `requery_non_a_source_first`
returns exactly 20 rows: all 5 PC rows (the PC quota of 10 is capped by
its supply) and 15 Mobile rows (the shortfall borrowed from Mobile). -/
theorem C4_requery_non_a_source_first :
    (requery_non_a_source_first c4Pools c4Mix 20).1.length = 20 ∧
    (requery_non_a_source_first c4Pools c4Mix 20).1.countP
      (fun r => r.source_key = SOURCE_PC) = 5 ∧
    (requery_non_a_source_first c4Pools c4Mix 20).1.countP
      (fun r => r.source_key = SOURCE_MOBILE) = 15 := by
  have h1 : _normalize_mix_local c4Mix
      = [(SOURCE_PC, (1 : ℚ)/2), (SOURCE_MOBILE, (1 : ℚ)/2)] := by
    norm_num [_normalize_mix_local, c4Mix, List.filter]
  have h2 : _hamilton_apportion_local (20 : ℤ)
      [(SOURCE_PC, (1 : ℚ)/2), (SOURCE_MOBILE, (1 : ℚ)/2)]
      = [(SOURCE_PC, (10 : ℤ)), (SOURCE_MOBILE, (10 : ℤ))] := by
    unfold _hamilton_apportion_local
    rw [if_neg (by simp)]
    norm_num [sortDescQ, insertDescQ, incKey]
  simp only [requery_non_a_source_first, h1, h2]
  decide

theorem normalize_mix_local_all_nonpos {mix : List (String × ℚ)}
    (h : ∀ kv ∈ mix, kv.2 ≤ 0) : _normalize_mix_local mix = [] := by
  unfold _normalize_mix_local
  have hf : mix.filter (fun kv => 0 < kv.2) = [] := by
    rw [List.filter_eq_nil_iff]
    intro kv hkv
    simpa using not_lt.mpr (h kv hkv)
  rw [hf]
  simp

theorem requery_source_first_empty_mix (pools : PoolsByWindow)
    (mix : List (String × ℚ)) (target : ℤ)
    (h : _normalize_mix_local mix = []) :
    (requery_non_a_source_first pools mix target).1 = [] := by
  simp only [requery_non_a_source_first, h]
  simp [_hamilton_apportion_local]

/-- C7 counterexample: the selection-stage normalizer
`_normalize_mix_local` does not fall back to the 50/50 default: on the
all-invalid mix `{"x": -1}` it returns the empty weight map, and
`requery_non_a_source_first` with that mix selects nothing even though a
non-empty Hot pool is available. -/
theorem C7_counterexample :
    _normalize_mix_local [("x", (-1 : ℚ))] = [] ∧
    ¬ _normalize_mix_local [("x", (-1 : ℚ))]
        = [(SOURCE_PC, (1 : ℚ)/2), (SOURCE_MOBILE, (1 : ℚ)/2)] ∧
    (requery_non_a_source_first ⟨[[demoHotRow]], [], []⟩
        [("x", (-1 : ℚ))] 5).1 = [] := by
  have h0 : _normalize_mix_local [("x", (-1 : ℚ))] = [] :=
    normalize_mix_local_all_nonpos (by norm_num)
  refine ⟨h0, by rw [h0]; simp, requery_source_first_empty_mix _ _ _ h0⟩

/-- C7 amended: the assignment-stage `_normalize_mix` falls back to the
uniform 50/50 PC/Mobile default when the mix is empty or has no positive
entry, but the selection-stage `_normalize_mix_local` instead returns an
empty weight map, so `requery_non_a_source_first` with an all-invalid mix
computes no quotas and returns an empty pool. -/
theorem C7_mix_defaults (pools : PoolsByWindow) (target : ℤ)
    (mix : List (String × ℚ)) (hmix : ∀ kv ∈ mix, kv.2 ≤ 0) :
    _normalize_mix []
        = [(SOURCE_PC, (1 : ℚ)/2), (SOURCE_MOBILE, (1 : ℚ)/2)] ∧
    _normalize_mix [("x", (-1 : ℚ))]
        = [(SOURCE_PC, (1 : ℚ)/2), (SOURCE_MOBILE, (1 : ℚ)/2)] ∧
    _normalize_mix_local mix = [] ∧
    (requery_non_a_source_first pools mix target).1 = [] := by
  have h0 := normalize_mix_local_all_nonpos hmix
  refine ⟨?_, ?_, h0, requery_source_first_empty_mix _ _ _ h0⟩
  · norm_num [_normalize_mix, List.filter]
  · norm_num [_normalize_mix, List.filter]

theorem C7_mix_defaults_witness :
    (∀ kv ∈ [("x", (-1 : ℚ))], kv.2 ≤ 0) ∧
    (requery_non_a_source_first ⟨[[demoHotRow]], [], []⟩
        [("x", (-1 : ℚ))] 5).1 = [] :=
  ⟨by norm_num,
    (C7_mix_defaults ⟨[[demoHotRow]], [], []⟩ 5 [("x", (-1 : ℚ))]
      (by norm_num)).2.2.2⟩

/-! ### Theorems: Hamilton apportionment (claim C6) -/

theorem insertDescQ_perm (x : String × ℚ) (l : List (String × ℚ)) :
    (insertDescQ x l).Perm (x :: l) := by
  induction l with
  | nil => exact List.Perm.refl _
  | cons y ys ih =>
    unfold insertDescQ
    by_cases h : y.2 > x.2
    · rw [if_pos h]
      exact (ih.cons y).trans (List.Perm.swap x y ys)
    · rw [if_neg h]

theorem sortDescQ_perm : ∀ l : List (String × ℚ), (sortDescQ l).Perm l := by
  intro l
  induction l with
  | nil => exact List.Perm.refl _
  | cons x xs ih =>
    exact (insertDescQ_perm x (sortDescQ xs)).trans (ih.cons x)

theorem incKey_fst (b : List (String × ℤ)) (k : String) :
    (incKey b k).map Prod.fst = b.map Prod.fst := by
  induction b with
  | nil => rfl
  | cons kv rest ih =>
    unfold incKey
    by_cases h : kv.1 = k
    · rw [if_pos h]
      simp [h]
    · rw [if_neg h]
      simp [ih]

theorem incKey_sum (b : List (String × ℤ)) (k : String)
    (hk : k ∈ b.map Prod.fst) :
    ((incKey b k).map Prod.snd).sum = (b.map Prod.snd).sum + 1 := by
  induction b with
  | nil => simp at hk
  | cons kv rest ih =>
    unfold incKey
    by_cases h : kv.1 = k
    · rw [if_pos h]
      simp only [List.map_cons, List.sum_cons]
      ring
    · rw [if_neg h]
      simp only [List.map_cons, List.sum_cons]
      have hk2 : k ∈ kv.1 :: rest.map Prod.fst := by
        simpa only [List.map_cons] using hk
      have hk' : k ∈ rest.map Prod.fst := by
        rcases List.mem_cons.mp hk2 with h1 | h1
        · exact absurd h1.symm h
        · exact h1
      rw [ih hk']
      ring

theorem foldl_incKey_sum : ∀ (ks : List String) (b : List (String × ℤ)),
    (∀ k ∈ ks, k ∈ b.map Prod.fst) →
    ((ks.foldl incKey b).map Prod.snd).sum
      = (b.map Prod.snd).sum + ks.length := by
  intro ks
  induction ks with
  | nil => intro b _; simp
  | cons k ks ih =>
    intro b hb
    simp only [List.foldl_cons, List.length_cons]
    rw [ih (incKey b k)
      (fun k' hk' => by rw [incKey_fst]; exact hb k' (List.mem_cons_of_mem k hk'))]
    rw [incKey_sum b k (hb k (List.mem_cons_self k ks))]
    push_cast
    ring

theorem sum_floor_le_sum (l : List ℚ) :
    (((l.map (fun q => ⌊q⌋)).sum : ℤ) : ℚ) ≤ l.sum := by
  induction l with
  | nil => simp
  | cons q qs ih =>
    simp only [List.map_cons, List.sum_cons, Int.cast_add]
    exact add_le_add (Int.floor_le q) ih

theorem sum_le_floor_sum_add_length (l : List ℚ) :
    l.sum ≤ (((l.map (fun q => ⌊q⌋)).sum : ℤ) : ℚ) + l.length := by
  induction l with
  | nil => simp
  | cons q qs ih =>
    simp only [List.map_cons, List.sum_cons, List.length_cons, Int.cast_add,
      Nat.cast_add, Nat.cast_one]
    have h1 : q ≤ (⌊q⌋ : ℚ) + 1 := le_of_lt (Int.lt_floor_add_one q)
    linarith

theorem sum_lt_floor_sum_add_length (l : List ℚ) (h : l ≠ []) :
    l.sum < (((l.map (fun q => ⌊q⌋)).sum : ℤ) : ℚ) + l.length := by
  cases l with
  | nil => exact absurd rfl h
  | cons q qs =>
    simp only [List.map_cons, List.sum_cons, List.length_cons, Int.cast_add,
      Nat.cast_add, Nat.cast_one]
    have h1 : q < (⌊q⌋ : ℚ) + 1 := Int.lt_floor_add_one q
    have h2 := sum_le_floor_sum_add_length qs
    linarith

set_option maxHeartbeats 800000 in
/-- C6: for every non-negative `total` and non-empty positive weight map
summing to 1, the Hamilton apportionment returns integer quotas summing
exactly to `total`; `total = 0` yields the all-zero allocation, and a
negative `total` is clamped to the all-zero allocation rather than
raising. -/
theorem C6_hamilton_apportion (total : ℤ) (weights : List (String × ℚ))
    (hne : weights ≠ []) (hpos : ∀ kv ∈ weights, 0 < kv.2)
    (hsum : (weights.map Prod.snd).sum = 1) :
    (0 ≤ total →
      ((_hamilton_apportion_local total weights).map Prod.snd).sum = total) ∧
    (total ≤ 0 →
      ∀ kv ∈ _hamilton_apportion_local total weights, kv.2 = 0) := by
  have hzero : total ≤ 0 →
      ∀ kv ∈ _hamilton_apportion_local total weights, kv.2 = 0 := by
    intro hle kv hkv
    unfold _hamilton_apportion_local at hkv
    rw [if_pos (Or.inl hle)] at hkv
    rcases List.mem_map.mp hkv with ⟨kv', _, hkv'⟩
    rw [← hkv']
  refine ⟨?_, hzero⟩
  intro h0
  rcases eq_or_lt_of_le h0 with h0' | h0'
  · have hz := hzero (le_of_eq h0'.symm)
    have hsum0 : ((_hamilton_apportion_local total weights).map Prod.snd).sum
        = 0 := by
      apply List.sum_eq_zero
      intro x hx
      rcases List.mem_map.mp hx with ⟨kv, hkv, hkx⟩
      rw [← hkx]
      exact hz kv hkv
    omega
  · unfold _hamilton_apportion_local
    rw [if_neg (by push_neg; exact ⟨by omega, hne⟩)]
    set base := weights.map (fun kv => (kv.1, ⌊(total : ℚ) * kv.2⌋)) with hbase
    set ssum := (base.map Prod.snd).sum with hssum
    set rem := weights.map
      (fun kv => (kv.1, (total : ℚ) * kv.2 - ⌊(total : ℚ) * kv.2⌋)) with hrem
    set leftover := total - ssum with hleft
    have hn : weights.length ≠ 0 := fun hc => hne (List.length_eq_zero.mp hc)
    have hidealsum :
        (weights.map (fun kv => (total : ℚ) * kv.2)).sum = (total : ℚ) := by
      rw [List.sum_map_mul_left weights Prod.snd ((total : ℚ))]
      rw [hsum, mul_one]
    have hssum_eq : ssum = ((weights.map (fun kv => (total : ℚ) * kv.2)).map
        (fun q => ⌊q⌋)).sum := by
      rw [hssum, hbase]
      rw [List.map_map, List.map_map]
      rfl
    have hfl := sum_floor_le_sum (weights.map (fun kv => (total : ℚ) * kv.2))
    have hfu := sum_lt_floor_sum_add_length
      (weights.map (fun kv => (total : ℚ) * kv.2))
      (fun hc => hne (List.map_eq_nil_iff.mp hc))
    rw [hidealsum, ← hssum_eq] at hfl hfu
    simp only [List.length_map] at hfu
    have hlb : 0 ≤ leftover := by
      rw [hleft]
      have hz : ssum ≤ total := by exact_mod_cast hfl
      omega
    have hub : leftover < weights.length := by
      rw [hleft]
      have hz : total < ssum + (weights.length : ℤ) := by exact_mod_cast hfu
      omega
    have hremlen : (sortDescQ rem).length = weights.length := by
      rw [(sortDescQ_perm rem).length_eq, hrem, List.length_map]
    have htakelen : ((sortDescQ rem).take leftover.toNat).length
        = leftover.toNat := by
      rw [List.length_take, hremlen]
      omega
    have hkeys : ∀ k ∈ ((sortDescQ rem).take leftover.toNat).map Prod.fst,
        k ∈ base.map Prod.fst := by
      intro k hk
      rcases List.mem_map.mp hk with ⟨kv, hkv, hkx⟩
      have hkv' : kv ∈ rem := (sortDescQ_perm rem).subset
        (List.mem_of_mem_take hkv)
      rw [hrem] at hkv'
      rcases List.mem_map.mp hkv' with ⟨w, hw, hwkv⟩
      rw [hbase]
      refine List.mem_map.mpr ⟨(w.1, ⌊(total : ℚ) * w.2⌋), List.mem_map.mpr
        ⟨w, hw, rfl⟩, ?_⟩
      rw [← hkx, ← hwkv]
    rw [foldl_incKey_sum _ base hkeys]
    rw [List.length_map, htakelen, ← hssum]
    omega

theorem C6_hamilton_apportion_witness :
    ((0 : ℤ) ≤ 7 ∧
      [(SOURCE_PC, (1 : ℚ)/2), (SOURCE_MOBILE, (1 : ℚ)/2)] ≠ [] ∧
      (∀ kv ∈ [(SOURCE_PC, (1 : ℚ)/2), (SOURCE_MOBILE, (1 : ℚ)/2)], 0 < kv.2) ∧
      ([(SOURCE_PC, (1 : ℚ)/2), (SOURCE_MOBILE, (1 : ℚ)/2)].map Prod.snd).sum
        = 1) ∧
    ((_hamilton_apportion_local 7
        [(SOURCE_PC, (1 : ℚ)/2), (SOURCE_MOBILE, (1 : ℚ)/2)]).map
      Prod.snd).sum = 7 :=
  ⟨⟨by norm_num, by simp, by norm_num, by norm_num⟩,
    (C6_hamilton_apportion 7
      [(SOURCE_PC, (1 : ℚ)/2), (SOURCE_MOBILE, (1 : ℚ)/2)]
      (by simp) (by norm_num) (by norm_num)).1 (by norm_num)⟩

/-- C2 evaluated at the failing input: the filter layer's `_triple_key`
builds the composite key from the raw phone string, so a trailing `".0"`
survives into the key and the keys of `"912345678.0"` and `"912345678"`
differ; moreover `normalize_phone` itself keeps the `0` of the `".0"`
float artifact (`"934322113.0"` gives `"9343221130"`, while its own
docstring promises `"934322113"`). -/
theorem C2_phone_key_eval :
    tripleKeyP ⟨"u", "912345678.0", "s", ""⟩ = "912345678.0|u|s" ∧
    tripleKeyP ⟨"u", "912345678", "s", ""⟩ = "912345678|u|s" ∧
    normalize_phone "912345678.0" = "9123456780" ∧
    normalize_phone "912345678" = "912345678" ∧
    normalize_phone "934322113.0" = "9343221130" := by
  refine ⟨rfl, rfl, ?_, ?_, ?_⟩ <;> decide

theorem C3_requery_non_a_witness :
    (1 ≤ 1 ∧ 1 ≤ (requeryStage1 ⟨[[demoHotRow]], [[demoColdRow]], []⟩).length) ∧
    (build_non_a_pool ⟨[[demoHotRow]], [[demoColdRow]], []⟩ 1).1.length = 1 :=
  ⟨⟨le_rfl, by decide⟩,
    ((C3_requery_non_a [[demoHotRow]] [[demoColdRow]] [] [] [] 1 le_rfl).1
      (by decide)).2.1⟩

/-! ### Theorems: assignment-layer basic lemmas -/

theorem take_first_append (df : List Row) (n : ℤ) :
    (_take_first df n).1 ++ (_take_first df n).2 = df := by
  unfold _take_first
  by_cases h : df = [] ∨ max 0 n = 0
  · rw [if_pos h]
    rfl
  · rw [if_neg h]
    exact List.take_append_drop _ df

theorem take_first_head_len (df : List Row) (n : ℤ) :
    ((_take_first df n).1).length = min (max 0 n).toNat df.length := by
  unfold _take_first
  by_cases h : df = [] ∨ max 0 n = 0
  · rw [if_pos h]
    rcases h with h | h
    · simp [h]
    · simp [h]
  · rw [if_neg h]
    simp [List.length_take]

theorem take_first_tail_of_head_nil {df : List Row} {n : ℤ}
    (h : (_take_first df n).1 = []) : (_take_first df n).2 = df := by
  have := take_first_append df n
  rw [h] at this
  simpa using this

theorem take_first_head_nil (n : ℤ) : (_take_first [] n).1 = [] := by
  unfold _take_first
  rw [if_pos (Or.inl rfl)]

theorem lookupRows_cons_eq (k : String) (v : List Row)
    (rem : List (String × List Row)) :
    lookupRows ((k, v) :: rem) k = v := by
  unfold lookupRows
  rw [List.find?_cons_of_pos _ (by simp)]

theorem lookupRows_cons_ne {s k : String} (v : List Row)
    (rem : List (String × List Row)) (h : ¬ k = s) :
    lookupRows ((k, v) :: rem) s = lookupRows rem s := by
  unfold lookupRows
  rw [List.find?_cons_of_neg _ (by simpa using h)]

theorem updateRows_cons_eq (k : String) (v w : List Row)
    (rem : List (String × List Row)) :
    updateRows ((k, v) :: rem) k w = (k, w) :: rem := by
  unfold updateRows
  rw [if_pos rfl]

theorem updateRows_cons_ne {s k : String} (v w : List Row)
    (rem : List (String × List Row)) (h : ¬ k = s) :
    updateRows ((k, v) :: rem) s w = (k, v) :: updateRows rem s w := by
  have h0 : updateRows ((k, v) :: rem) s w
      = if (k, v).1 = s then (s, w) :: rem else (k, v) :: updateRows rem s w := rfl
  rw [h0, if_neg h]

theorem updateRows_fst (rem : List (String × List Row)) (k : String)
    (v : List Row) : (updateRows rem k v).map Prod.fst = rem.map Prod.fst := by
  induction rem with
  | nil => rfl
  | cons kv rest ih =>
    unfold updateRows
    by_cases h : kv.1 = k
    · rw [if_pos h]
      simp [h]
    · rw [if_neg h]
      simp [ih]

theorem lookupRows_eq_nil_of_not_mem {rem : List (String × List Row)}
    {k : String} (h : ¬ k ∈ rem.map Prod.fst) : lookupRows rem k = [] := by
  unfold lookupRows
  rw [List.find?_eq_none.mpr]
  intro kv hkv
  simp only [decide_eq_true_eq]
  exact fun hc => h (List.mem_map.mpr ⟨kv, hkv, hc⟩)

theorem mem_of_lookupRows_ne_nil {rem : List (String × List Row)}
    {k : String} (h : ¬ lookupRows rem k = []) : k ∈ rem.map Prod.fst := by
  by_contra hc
  exact h (lookupRows_eq_nil_of_not_mem hc)

theorem remTotal_update {rem : List (String × List Row)} {k : String}
    (v : List Row) (hk : k ∈ rem.map Prod.fst) :
    remTotal (updateRows rem k v) + (lookupRows rem k).length
      = remTotal rem + v.length := by
  induction rem with
  | nil => simp at hk
  | cons kv rest ih =>
    by_cases h : kv.1 = k
    · obtain ⟨k0, v0⟩ := kv
      simp only at h
      subst h
      rw [updateRows_cons_eq, lookupRows_cons_eq]
      simp only [remTotal, List.map_cons, List.sum_cons]
      omega
    · obtain ⟨k0, v0⟩ := kv
      simp only at h
      rw [updateRows_cons_ne _ _ _ h, lookupRows_cons_ne _ _ h]
      have hk2 : k ∈ k0 :: rest.map Prod.fst := by
        simpa only [List.map_cons] using hk
      have hk' : k ∈ rest.map Prod.fst := by
        rcases List.mem_cons.mp hk2 with h1 | h1
        · exact absurd h1.symm h
        · exact h1
      simp only [remTotal, List.map_cons, List.sum_cons] at ih ⊢
      have := ih hk'
      omega

theorem lookupRows_update_ne {rem : List (String × List Row)} {s k : String}
    (v : List Row) (h : ¬ s = k) :
    lookupRows (updateRows rem s v) k = lookupRows rem k := by
  induction rem with
  | nil => rfl
  | cons kv rest ih =>
    obtain ⟨k0, v0⟩ := kv
    by_cases h0 : k0 = s
    · subst h0
      rw [updateRows_cons_eq]
      rw [lookupRows_cons_ne _ _ h, lookupRows_cons_ne _ _ h]
    · rw [updateRows_cons_ne _ _ _ h0]
      by_cases h1 : k0 = k
      · subst h1
        rw [lookupRows_cons_eq, lookupRows_cons_eq]
      · rw [lookupRows_cons_ne _ _ h1, lookupRows_cons_ne _ _ h1]
        exact ih

theorem lookupRows_update_eq {rem : List (String × List Row)} {k : String}
    (v : List Row) (hk : k ∈ rem.map Prod.fst) :
    lookupRows (updateRows rem k v) k = v := by
  induction rem with
  | nil => simp at hk
  | cons kv rest ih =>
    obtain ⟨k0, v0⟩ := kv
    by_cases h : k0 = k
    · subst h
      rw [updateRows_cons_eq, lookupRows_cons_eq]
    · rw [updateRows_cons_ne _ _ _ h, lookupRows_cons_ne _ _ h]
      have hk2 : k ∈ k0 :: rest.map Prod.fst := by
        simpa only [List.map_cons] using hk
      rcases List.mem_cons.mp hk2 with h1 | h1
      · exact absurd h1.symm h
      · exact ih h1

theorem lookupRows_len_le_remTotal (rem : List (String × List Row))
    (k : String) : (lookupRows rem k).length ≤ remTotal rem := by
  induction rem with
  | nil => simp [lookupRows, remTotal]
  | cons kv rest ih =>
    obtain ⟨k0, v0⟩ := kv
    simp only [remTotal, List.map_cons, List.sum_cons]
    by_cases h : k0 = k
    · subst h
      rw [lookupRows_cons_eq]
      omega
    · rw [lookupRows_cons_ne _ _ h]
      simp only [remTotal] at ih
      omega

theorem lookupRows_self_of_nodup {rem : List (String × List Row)}
    (hnd : (rem.map Prod.fst).Nodup) :
    ∀ kv ∈ rem, lookupRows rem kv.1 = kv.2 := by
  induction rem with
  | nil => simp
  | cons kv0 rest ih =>
    intro kv hkv
    obtain ⟨k0, v0⟩ := kv0
    simp only [List.map_cons, List.nodup_cons] at hnd
    rcases List.mem_cons.mp hkv with h | h
    · rw [h, lookupRows_cons_eq]
    · have hne : ¬ k0 = kv.1 := by
        intro hc
        exact hnd.1 (hc ▸ List.mem_map.mpr ⟨kv, h, rfl⟩)
      rw [lookupRows_cons_ne _ _ hne]
      exact ih hnd.2 kv h

theorem remTotal_eq_zero_of_lookups {rem : List (String × List Row)}
    (hnd : (rem.map Prod.fst).Nodup)
    (h : ∀ k ∈ rem.map Prod.fst, lookupRows rem k = []) :
    remTotal rem = 0 := by
  unfold remTotal
  apply List.sum_eq_zero
  intro x hx
  rcases List.mem_map.mp hx with ⟨kv, hkv, hkx⟩
  have := lookupRows_self_of_nodup hnd kv hkv
  rw [h kv.1 (List.mem_map.mpr ⟨kv, hkv, rfl⟩)] at this
  rw [← hkx, ← this]
  rfl

/-! ### Theorems: pull-phase fold lemmas -/

theorem pull_accum (caller : String) : ∀ (ds : List (String × ℤ))
    (rem : List (String × List Row)) (ps : List (List (Row × String))),
    ds.foldl (pullStep caller) (rem, ps)
      = ((ds.foldl (pullStep caller) (rem, [])).1,
         ps ++ (ds.foldl (pullStep caller) (rem, [])).2) := by
  intro ds
  induction ds with
  | nil => intro rem ps; simp
  | cons d ds ih =>
    intro rem ps
    simp only [List.foldl_cons, pullStep]
    by_cases h : (_take_first (lookupRows rem d.1) d.2).1 = []
    · rw [if_pos h, if_pos h]
      exact ih rem ps
    · rw [if_neg h, if_neg h]
      rw [ih, ih (updateRows rem d.1 (_take_first (lookupRows rem d.1) d.2).2)
        ([] ++ [((_take_first (lookupRows rem d.1) d.2).1).map
          (fun r => (r, caller))])]
      simp

theorem pull_conserve (caller : String) : ∀ (ds : List (String × ℤ))
    (rem : List (String × List Row)) (ps : List (List (Row × String))),
    remTotal (ds.foldl (pullStep caller) (rem, ps)).1
        + framesLen (ds.foldl (pullStep caller) (rem, ps)).2
      = remTotal rem + framesLen ps := by
  intro ds
  induction ds with
  | nil => intro rem ps; rfl
  | cons d ds ih =>
    intro rem ps
    simp only [List.foldl_cons, pullStep]
    by_cases h : (_take_first (lookupRows rem d.1) d.2).1 = []
    · rw [if_pos h]
      exact ih rem ps
    · rw [if_neg h]
      rw [ih]
      have hmem : d.1 ∈ rem.map Prod.fst := by
        apply mem_of_lookupRows_ne_nil
        intro hc
        rw [hc] at h
        exact h (take_first_head_nil d.2)
      have hupd := @remTotal_update rem d.1
        ((_take_first (lookupRows rem d.1) d.2).2) hmem
      have hsplit : ((_take_first (lookupRows rem d.1) d.2).1).length
          + ((_take_first (lookupRows rem d.1) d.2).2).length
          = (lookupRows rem d.1).length := by
        have h2 := congrArg List.length (take_first_append (lookupRows rem d.1) d.2)
        simpa [List.length_append] using h2
      simp only [framesLen, List.map_append, List.sum_append, List.map_cons,
        List.sum_cons, List.length_map, List.map_nil, List.sum_nil]
      simp only [framesLen] at hupd ⊢
      omega

theorem pull_keys (caller : String) : ∀ (ds : List (String × ℤ))
    (rem : List (String × List Row)) (ps : List (List (Row × String))),
    (ds.foldl (pullStep caller) (rem, ps)).1.map Prod.fst = rem.map Prod.fst := by
  intro ds
  induction ds with
  | nil => intro rem ps; rfl
  | cons d ds ih =>
    intro rem ps
    simp only [List.foldl_cons, pullStep]
    by_cases h : (_take_first (lookupRows rem d.1) d.2).1 = []
    · rw [if_pos h]
      exact ih rem ps
    · rw [if_neg h]
      rw [ih, updateRows_fst]

theorem pull_names (caller : String) : ∀ (ds : List (String × ℤ))
    (rem : List (String × List Row)) (ps : List (List (Row × String))),
    ∀ pr ∈ (ds.foldl (pullStep caller) (rem, ps)).2.flatten,
      pr ∈ ps.flatten ∨ pr.2 = caller := by
  intro ds
  induction ds with
  | nil => intro rem ps pr hpr; exact Or.inl hpr
  | cons d ds ih =>
    intro rem ps pr hpr
    simp only [List.foldl_cons, pullStep] at hpr
    by_cases h : (_take_first (lookupRows rem d.1) d.2).1 = []
    · rw [if_pos h] at hpr
      exact ih rem ps pr hpr
    · rw [if_neg h] at hpr
      rcases ih _ _ pr hpr with hmem | hc
      · rw [List.flatten_append] at hmem
        rcases List.mem_append.mp hmem with h1 | h1
        · exact Or.inl h1
        · simp only [List.flatten_cons, List.flatten_nil, List.append_nil] at h1
          rcases List.mem_map.mp h1 with ⟨r, _, hr⟩
          right
          rw [← hr]
      · exact Or.inr hc

theorem pull_bound (caller : String) : ∀ (ds : List (String × ℤ))
    (rem : List (String × List Row)) (ps : List (List (Row × String))),
    framesLen (ds.foldl (pullStep caller) (rem, ps)).2
      ≤ framesLen ps + (ds.map (fun kv => (max 0 kv.2).toNat)).sum := by
  intro ds
  induction ds with
  | nil => intro rem ps; simp
  | cons d ds ih =>
    intro rem ps
    simp only [List.foldl_cons, pullStep, List.map_cons, List.sum_cons]
    by_cases h : (_take_first (lookupRows rem d.1) d.2).1 = []
    · rw [if_pos h]
      have := ih rem ps
      omega
    · rw [if_neg h]
      have hlen : ((_take_first (lookupRows rem d.1) d.2).1).length
          ≤ (max 0 d.2).toNat := by
        rw [take_first_head_len]
        omega
      have := ih (updateRows rem d.1 (_take_first (lookupRows rem d.1) d.2).2)
        (ps ++ [((_take_first (lookupRows rem d.1) d.2).1).map
          (fun r => (r, caller))])
      simp only [framesLen, List.map_append, List.sum_append, List.map_cons,
        List.sum_cons, List.length_map, List.map_nil, List.sum_nil] at this ⊢
      omega

theorem pull_all_empty (caller : String) : ∀ (ds : List (String × ℤ))
    (rem : List (String × List Row)),
    (∀ k ∈ rem.map Prod.fst, lookupRows rem k = []) →
    ds.foldl (pullStep caller) (rem, []) = (rem, []) := by
  intro ds
  induction ds with
  | nil => intro rem _; rfl
  | cons d ds ih =>
    intro rem hall
    simp only [List.foldl_cons, pullStep]
    have hlk : lookupRows rem d.1 = [] := by
      by_cases hd : d.1 ∈ rem.map Prod.fst
      · exact hall d.1 hd
      · exact lookupRows_eq_nil_of_not_mem hd
    rw [if_pos (by rw [hlk]; exact take_first_head_nil d.2)]
    exact ih rem hall

/-! ### Theorems: top-up fold lemmas -/

theorem topup_conserve (caller : String) : ∀ (ks : List String)
    (st : List (String × List Row) × List (List (Row × String)) × ℤ),
    remTotal (sourceTopUp caller ks st).1
        + framesLen (sourceTopUp caller ks st).2.1
      = remTotal st.1 + framesLen st.2.1 := by
  intro ks
  induction ks with
  | nil => intro st; rfl
  | cons s ks ih =>
    intro st
    simp only [sourceTopUp, List.foldl_cons, topupStep]
    by_cases h0 : st.2.2 ≤ 0
    · rw [if_pos h0]
      exact ih st
    · rw [if_neg h0]
      by_cases h : (_take_first (lookupRows st.1 s) st.2.2).1 = []
      · rw [if_pos h]
        exact ih st
      · rw [if_neg h]
        have hrec := ih (updateRows st.1 s (_take_first (lookupRows st.1 s) st.2.2).2,
          st.2.1 ++ [((_take_first (lookupRows st.1 s) st.2.2).1).map
            (fun r => (r, caller))],
          st.2.2 - (((_take_first (lookupRows st.1 s) st.2.2).1).length : ℤ))
        simp only [sourceTopUp] at hrec
        rw [hrec]
        have hmem : s ∈ st.1.map Prod.fst := by
          apply mem_of_lookupRows_ne_nil
          intro hc
          rw [hc] at h
          exact h (take_first_head_nil st.2.2)
        have hupd := @remTotal_update st.1 s
          ((_take_first (lookupRows st.1 s) st.2.2).2) hmem
        have hsplit : ((_take_first (lookupRows st.1 s) st.2.2).1).length
            + ((_take_first (lookupRows st.1 s) st.2.2).2).length
            = (lookupRows st.1 s).length := by
          have h2 := congrArg List.length
            (take_first_append (lookupRows st.1 s) st.2.2)
          simpa [List.length_append] using h2
        simp only [framesLen, List.map_append, List.sum_append, List.map_cons,
          List.sum_cons, List.length_map, List.map_nil, List.sum_nil] at hupd ⊢
        omega

theorem topup_keys (caller : String) : ∀ (ks : List String)
    (st : List (String × List Row) × List (List (Row × String)) × ℤ),
    (sourceTopUp caller ks st).1.map Prod.fst = st.1.map Prod.fst := by
  intro ks
  induction ks with
  | nil => intro st; rfl
  | cons s ks ih =>
    intro st
    simp only [sourceTopUp, List.foldl_cons, topupStep]
    by_cases h0 : st.2.2 ≤ 0
    · rw [if_pos h0]
      exact ih st
    · rw [if_neg h0]
      by_cases h : (_take_first (lookupRows st.1 s) st.2.2).1 = []
      · rw [if_pos h]
        exact ih st
      · rw [if_neg h]
        have hrec := ih (updateRows st.1 s (_take_first (lookupRows st.1 s) st.2.2).2,
          st.2.1 ++ [((_take_first (lookupRows st.1 s) st.2.2).1).map
            (fun r => (r, caller))],
          st.2.2 - (((_take_first (lookupRows st.1 s) st.2.2).1).length : ℤ))
        simp only [sourceTopUp] at hrec
        rw [hrec, updateRows_fst]

theorem topup_names (caller : String) : ∀ (ks : List String)
    (st : List (String × List Row) × List (List (Row × String)) × ℤ),
    ∀ pr ∈ (sourceTopUp caller ks st).2.1.flatten,
      pr ∈ st.2.1.flatten ∨ pr.2 = caller := by
  intro ks
  induction ks with
  | nil => intro st pr hpr; exact Or.inl hpr
  | cons s ks ih =>
    intro st pr hpr
    simp only [sourceTopUp, List.foldl_cons, topupStep] at hpr
    by_cases h0 : st.2.2 ≤ 0
    · rw [if_pos h0] at hpr
      exact ih st pr hpr
    · rw [if_neg h0] at hpr
      by_cases h : (_take_first (lookupRows st.1 s) st.2.2).1 = []
      · rw [if_pos h] at hpr
        exact ih st pr hpr
      · rw [if_neg h] at hpr
        rcases ih _ pr hpr with hmem | hc
        · rw [List.flatten_append] at hmem
          rcases List.mem_append.mp hmem with h1 | h1
          · exact Or.inl h1
          · simp only [List.flatten_cons, List.flatten_nil, List.append_nil] at h1
            rcases List.mem_map.mp h1 with ⟨r, _, hr⟩
            right
            rw [← hr]
        · exact Or.inr hc

theorem topup_short (caller : String) : ∀ (ks : List String)
    (st : List (String × List Row) × List (List (Row × String)) × ℤ),
    (sourceTopUp caller ks st).2.2
        + ((framesLen (sourceTopUp caller ks st).2.1 : ℤ))
      = st.2.2 + (framesLen st.2.1 : ℤ) := by
  intro ks
  induction ks with
  | nil => intro st; rfl
  | cons s ks ih =>
    intro st
    simp only [sourceTopUp, List.foldl_cons, topupStep]
    by_cases h0 : st.2.2 ≤ 0
    · rw [if_pos h0]
      exact ih st
    · rw [if_neg h0]
      by_cases h : (_take_first (lookupRows st.1 s) st.2.2).1 = []
      · rw [if_pos h]
        exact ih st
      · rw [if_neg h]
        have hrec := ih (updateRows st.1 s (_take_first (lookupRows st.1 s) st.2.2).2,
          st.2.1 ++ [((_take_first (lookupRows st.1 s) st.2.2).1).map
            (fun r => (r, caller))],
          st.2.2 - (((_take_first (lookupRows st.1 s) st.2.2).1).length : ℤ))
        simp only [sourceTopUp] at hrec
        rw [hrec]
        simp only [framesLen, List.map_append, List.sum_append, List.map_cons,
          List.sum_cons, List.length_map, List.map_nil, List.sum_nil]
        push_cast
        ring

theorem topup_short_nonneg (caller : String) : ∀ (ks : List String)
    (st : List (String × List Row) × List (List (Row × String)) × ℤ),
    0 ≤ st.2.2 → 0 ≤ (sourceTopUp caller ks st).2.2 := by
  intro ks
  induction ks with
  | nil => intro st h; exact h
  | cons s ks ih =>
    intro st hst
    simp only [sourceTopUp, List.foldl_cons, topupStep]
    by_cases h0 : st.2.2 ≤ 0
    · rw [if_pos h0]
      exact ih st hst
    · rw [if_neg h0]
      by_cases h : (_take_first (lookupRows st.1 s) st.2.2).1 = []
      · rw [if_pos h]
        exact ih st hst
      · rw [if_neg h]
        refine ih _ ?_
        simp only
        have hlen : ((_take_first (lookupRows st.1 s) st.2.2).1).length
            ≤ (max 0 st.2.2).toNat := by
          rw [take_first_head_len]
          omega
        omega

theorem topup_short_mono (caller : String) : ∀ (ks : List String)
    (st : List (String × List Row) × List (List (Row × String)) × ℤ),
    (sourceTopUp caller ks st).2.2 ≤ st.2.2 := by
  intro ks
  induction ks with
  | nil => intro st; exact le_rfl
  | cons s ks ih =>
    intro st
    simp only [sourceTopUp, List.foldl_cons, topupStep]
    by_cases h0 : st.2.2 ≤ 0
    · rw [if_pos h0]
      exact ih st
    · rw [if_neg h0]
      by_cases h : (_take_first (lookupRows st.1 s) st.2.2).1 = []
      · rw [if_pos h]
        exact ih st
      · rw [if_neg h]
        refine le_trans (ih _) ?_
        simp only
        have : (0 : ℤ) ≤ ((_take_first (lookupRows st.1 s) st.2.2).1).length := by
          positivity
        omega

theorem topup_lookup_pres (caller : String) : ∀ (ks : List String)
    (st : List (String × List Row) × List (List (Row × String)) × ℤ)
    (k : String), ¬ k ∈ ks →
    lookupRows (sourceTopUp caller ks st).1 k = lookupRows st.1 k := by
  intro ks
  induction ks with
  | nil => intro st k _; rfl
  | cons s ks ih =>
    intro st k hk
    have hks : ¬ k ∈ ks := fun hc => hk (List.mem_cons_of_mem s hc)
    have hsk : ¬ s = k := fun hc => hk (hc ▸ List.mem_cons_self s ks)
    simp only [sourceTopUp, List.foldl_cons, topupStep]
    by_cases h0 : st.2.2 ≤ 0
    · rw [if_pos h0]
      exact ih st k hks
    · rw [if_neg h0]
      by_cases h : (_take_first (lookupRows st.1 s) st.2.2).1 = []
      · rw [if_pos h]
        exact ih st k hks
      · rw [if_neg h]
        have hrec := ih (updateRows st.1 s (_take_first (lookupRows st.1 s) st.2.2).2,
          st.2.1 ++ [((_take_first (lookupRows st.1 s) st.2.2).1).map
            (fun r => (r, caller))],
          st.2.2 - (((_take_first (lookupRows st.1 s) st.2.2).1).length : ℤ)) k hks
        simp only [sourceTopUp] at hrec
        rw [hrec]
        exact lookupRows_update_ne _ hsk

theorem topup_all_empty (caller : String) : ∀ (ks : List String)
    (st : List (String × List Row) × List (List (Row × String)) × ℤ),
    (∀ k ∈ ks, lookupRows st.1 k = []) →
    sourceTopUp caller ks st = st := by
  intro ks
  induction ks with
  | nil => intro st _; rfl
  | cons s ks ih =>
    intro st hall
    simp only [sourceTopUp, List.foldl_cons, topupStep]
    by_cases h0 : st.2.2 ≤ 0
    · rw [if_pos h0]
      exact ih st (fun k hk => hall k (List.mem_cons_of_mem s hk))
    · rw [if_neg h0]
      have hnil : (_take_first (lookupRows st.1 s) st.2.2).1 = [] := by
        rw [hall s (List.mem_cons_self s ks)]
        exact take_first_head_nil st.2.2
      rw [if_pos hnil]
      exact ih st (fun k hk => hall k (List.mem_cons_of_mem s hk))

theorem take_first_head_ne_nil {df : List Row} {n : ℤ} (hn : 0 < n)
    (hdf : ¬ df = []) : ¬ (_take_first df n).1 = [] := by
  intro hc
  have := take_first_head_len df n
  rw [hc] at this
  simp only [List.length_nil] at this
  have h1 : 0 < (max 0 n).toNat := by omega
  have h2 : 0 < df.length := List.length_pos.mpr hdf
  omega

theorem topup_empties (caller : String) : ∀ (ks : List String)
    (st : List (String × List Row) × List (List (Row × String)) × ℤ),
    ks.Nodup → 0 < (sourceTopUp caller ks st).2.2 →
    ∀ k ∈ ks, lookupRows (sourceTopUp caller ks st).1 k = [] := by
  intro ks
  induction ks with
  | nil => intro st _ _ k hk; simp at hk
  | cons s ks ih =>
    intro st hnd hpos k hk
    have hnd' : ks.Nodup := (List.nodup_cons.mp hnd).2
    have hsks : ¬ s ∈ ks := (List.nodup_cons.mp hnd).1
    by_cases h0 : st.2.2 ≤ 0
    · exfalso
      have hle := topup_short_mono caller (s :: ks) st
      omega
    · have hstep : sourceTopUp caller (s :: ks) st
          = sourceTopUp caller ks (topupStep caller st s) := rfl
      rcases List.mem_cons.mp hk with hks | hks
      · subst hks
        rw [hstep]
        rw [topup_lookup_pres caller ks _ k hsks]
        simp only [topupStep]
        rw [if_neg h0]
        by_cases h : (_take_first (lookupRows st.1 k) st.2.2).1 = []
        · rw [if_pos h]
          by_contra hc
          exact (take_first_head_ne_nil (by omega) hc) h
        · rw [if_neg h]
          simp only
          have hmem : k ∈ st.1.map Prod.fst := by
            apply mem_of_lookupRows_ne_nil
            intro hc
            rw [hc] at h
            exact h (take_first_head_nil st.2.2)
          rw [lookupRows_update_eq _ hmem]
          by_contra hc
          have hlen : ((_take_first (lookupRows st.1 k) st.2.2).1).length
              = min (max 0 st.2.2).toNat (lookupRows st.1 k).length :=
            take_first_head_len _ _
          have htl := congrArg List.length
            (take_first_append (lookupRows st.1 k) st.2.2)
          simp only [List.length_append] at htl
          have htl_pos : 0 < ((_take_first (lookupRows st.1 k) st.2.2).2).length :=
            List.length_pos.mpr hc
          have hadd : ((_take_first (lookupRows st.1 k) st.2.2).1).length
              = (max 0 st.2.2).toNat := by omega
          have hshort0 : (sourceTopUp caller ks (topupStep caller st k)).2.2
              ≤ (topupStep caller st k).2.2 := topup_short_mono _ _ _
          rw [hstep] at hpos
          have hts : (topupStep caller st k).2.2
              = st.2.2 - (((_take_first (lookupRows st.1 k) st.2.2).1).length : ℤ) := by
            simp only [topupStep]
            rw [if_neg h0, if_neg h]
          rw [hts] at hshort0
          omega
      · rw [hstep]
        refine ih (topupStep caller st s) hnd' ?_ k hks
        rw [hstep] at hpos
        exact hpos

/-! ### Theorems: properties of the assignment mix normalizer -/

theorem sum_map_snd_div (l : List (String × ℚ)) (c : ℚ) :
    ((l.map (fun kv => (kv.1, kv.2 / c))).map Prod.snd).sum
      = (l.map Prod.snd).sum / c := by
  induction l with
  | nil => simp
  | cons kv rest ih =>
    simp only [List.map_cons, List.sum_cons]
    rw [ih, add_div]

theorem normalize_mix_sum (mix : List (String × ℚ)) :
    ((_normalize_mix mix).map Prod.snd).sum = 1 := by
  unfold _normalize_mix
  by_cases h : ((mix.filter (fun kv => 0 < kv.2)).map Prod.snd).sum ≤ 0
  · rw [if_pos h]
    norm_num
  · rw [if_neg h]
    rw [sum_map_snd_div]
    exact div_self (by intro hc; rw [hc] at h; exact h le_rfl)

theorem normalize_mix_pos (mix : List (String × ℚ)) :
    ∀ kv ∈ _normalize_mix mix, 0 < kv.2 := by
  unfold _normalize_mix
  by_cases h : ((mix.filter (fun kv => 0 < kv.2)).map Prod.snd).sum ≤ 0
  · rw [if_pos h]
    intro kv hkv
    rcases List.mem_cons.mp hkv with h1 | h1
    · rw [h1]
      norm_num
    · rcases List.mem_cons.mp h1 with h2 | h2
      · rw [h2]
        norm_num
      · simp at h2
  · rw [if_neg h]
    intro kv hkv
    rcases List.mem_map.mp hkv with ⟨kv', hkv', hkveq⟩
    have h1 : 0 < kv'.2 := by simpa using List.of_mem_filter hkv'
    have h2 : 0 < ((mix.filter (fun kv => 0 < kv.2)).map Prod.snd).sum :=
      lt_of_not_le h
    rw [← hkveq]
    exact div_pos h1 h2

theorem normalize_mix_ne_nil (mix : List (String × ℚ)) :
    ¬ _normalize_mix mix = [] := by
  unfold _normalize_mix
  by_cases h : ((mix.filter (fun kv => 0 < kv.2)).map Prod.snd).sum ≤ 0
  · rw [if_pos h]
    simp
  · rw [if_neg h]
    intro hc
    rw [List.map_eq_nil_iff] at hc
    rw [hc] at h
    simp at h

theorem normalize_mix_keys_nodup (mix : List (String × ℚ))
    (hnd : (mix.map Prod.fst).Nodup) :
    ((_normalize_mix mix).map Prod.fst).Nodup := by
  unfold _normalize_mix
  by_cases h : ((mix.filter (fun kv => 0 < kv.2)).map Prod.snd).sum ≤ 0
  · rw [if_pos h]
    simp [SOURCE_PC, SOURCE_MOBILE]
  · rw [if_neg h]
    rw [List.map_map]
    have heq : (Prod.fst ∘ fun kv : String × ℚ =>
        (kv.1, kv.2 / ((mix.filter (fun kv => 0 < kv.2)).map Prod.snd).sum))
        = Prod.fst := rfl
    rw [heq]
    exact ((List.filter_sublist mix).map Prod.fst).nodup hnd

/-! ### Theorems: properties of the per-caller desired counts -/

theorem foldl_incKey_fst : ∀ (ks : List String) (b : List (String × ℤ)),
    (ks.foldl incKey b).map Prod.fst = b.map Prod.fst := by
  intro ks
  induction ks with
  | nil => intro b; rfl
  | cons k ks ih =>
    intro b
    simp only [List.foldl_cons]
    rw [ih, incKey_fst]

theorem incKey_nonneg {b : List (String × ℤ)} (hb : ∀ kv ∈ b, 0 ≤ kv.2)
    (k : String) : ∀ kv ∈ incKey b k, 0 ≤ kv.2 := by
  induction b with
  | nil => simp [incKey]
  | cons kv0 rest ih =>
    unfold incKey
    by_cases h : kv0.1 = k
    · rw [if_pos h]
      intro kv hkv
      rcases List.mem_cons.mp hkv with h1 | h1
      · rw [h1]
        have := hb kv0 (List.mem_cons_self kv0 rest)
        simp only
        omega
      · exact hb kv (List.mem_cons_of_mem kv0 h1)
    · rw [if_neg h]
      intro kv hkv
      rcases List.mem_cons.mp hkv with h1 | h1
      · rw [h1]
        exact hb kv0 (List.mem_cons_self kv0 rest)
      · exact ih (fun kv' hkv' => hb kv' (List.mem_cons_of_mem kv0 hkv')) kv h1

theorem foldl_incKey_nonneg : ∀ (ks : List String) (b : List (String × ℤ)),
    (∀ kv ∈ b, 0 ≤ kv.2) → ∀ kv ∈ ks.foldl incKey b, 0 ≤ kv.2 := by
  intro ks
  induction ks with
  | nil => intro b hb; exact hb
  | cons k ks ih =>
    intro b hb
    simp only [List.foldl_cons]
    exact ih (incKey b k) (incKey_nonneg hb k)

theorem desired_fst (t : ℤ) (w : List (String × ℚ)) :
    (desiredCounts t w).map Prod.fst = w.map Prod.fst := by
  unfold desiredCounts
  by_cases h : 0 < t - ((w.map (fun kv => (kv.1, ⌊(t : ℚ) * kv.2⌋))).map
      Prod.snd).sum
  · rw [if_pos h, foldl_incKey_fst, List.map_map]
    rfl
  · rw [if_neg h, List.map_map]
    rfl

theorem desired_nonneg (t : ℤ) (w : List (String × ℚ)) (ht : 1 ≤ t)
    (hpos : ∀ kv ∈ w, 0 < kv.2) :
    ∀ kv ∈ desiredCounts t w, 0 ≤ kv.2 := by
  have hbase : ∀ kv ∈ w.map (fun kv => (kv.1, ⌊(t : ℚ) * kv.2⌋)), 0 ≤ kv.2 := by
    intro kv hkv
    rcases List.mem_map.mp hkv with ⟨kv', hkv', hkveq⟩
    rw [← hkveq]
    simp only
    apply Int.floor_nonneg.mpr
    have h1 : (0 : ℚ) < (t : ℚ) := by exact_mod_cast lt_of_lt_of_le one_pos ht
    exact le_of_lt (mul_pos h1 (hpos kv' hkv'))
  unfold desiredCounts
  by_cases h : 0 < t - ((w.map (fun kv => (kv.1, ⌊(t : ℚ) * kv.2⌋))).map
      Prod.snd).sum
  · rw [if_pos h]
    exact foldl_incKey_nonneg _ _ hbase
  · rw [if_neg h]
    exact hbase

theorem desired_sum (t : ℤ) (w : List (String × ℚ)) (ht : 1 ≤ t)
    (hne : ¬ w = []) (hpos : ∀ kv ∈ w, 0 < kv.2)
    (hsum : (w.map Prod.snd).sum = 1) :
    ((desiredCounts t w).map Prod.snd).sum = t := by
  unfold desiredCounts
  set base := w.map (fun kv => (kv.1, ⌊(t : ℚ) * kv.2⌋)) with hbase
  set ssumD := (base.map Prod.snd).sum with hssum
  set tracker := w.map
    (fun kv => (kv.1, (t : ℚ) * kv.2 - ⌊(t : ℚ) * kv.2⌋)) with htracker
  have hidealsum : (w.map (fun kv => (t : ℚ) * kv.2)).sum = (t : ℚ) := by
    rw [List.sum_map_mul_left w Prod.snd ((t : ℚ)), hsum, mul_one]
  have hssum_eq : ssumD = ((w.map (fun kv => (t : ℚ) * kv.2)).map
      (fun q => ⌊q⌋)).sum := by
    rw [hssum, hbase, List.map_map, List.map_map]
    rfl
  have hfl := sum_floor_le_sum (w.map (fun kv => (t : ℚ) * kv.2))
  have hfu := sum_lt_floor_sum_add_length (w.map (fun kv => (t : ℚ) * kv.2))
    (fun hc => hne (List.map_eq_nil_iff.mp hc))
  rw [hidealsum, ← hssum_eq] at hfl hfu
  simp only [List.length_map] at hfu
  have hlb : ssumD ≤ t := by exact_mod_cast hfl
  have hub : t < ssumD + (w.length : ℤ) := by exact_mod_cast hfu
  by_cases h : 0 < t - ssumD
  · rw [if_pos h]
    have hremlen : (sortDescQ tracker).length = w.length := by
      rw [(sortDescQ_perm tracker).length_eq, htracker, List.length_map]
    have htakelen : ((sortDescQ tracker).take (t - ssumD).toNat).length
        = (t - ssumD).toNat := by
      rw [List.length_take, hremlen]
      omega
    have hkeys : ∀ k ∈ ((sortDescQ tracker).take (t - ssumD).toNat).map Prod.fst,
        k ∈ base.map Prod.fst := by
      intro k hk
      rcases List.mem_map.mp hk with ⟨kv, hkv, hkx⟩
      have hkv' : kv ∈ tracker := (sortDescQ_perm tracker).subset
        (List.mem_of_mem_take hkv)
      rw [htracker] at hkv'
      rcases List.mem_map.mp hkv' with ⟨x, hx, hxkv⟩
      rw [hbase]
      refine List.mem_map.mpr ⟨(x.1, ⌊(t : ℚ) * x.2⌋), List.mem_map.mpr
        ⟨x, hx, rfl⟩, ?_⟩
      rw [← hkx, ← hxkv]
    rw [foldl_incKey_sum _ base hkeys]
    rw [List.length_map, htakelen, ← hssum]
    omega
  · rw [if_neg h, ← hssum]
    omega

theorem sum_max_toNat (ds : List (String × ℤ)) (h : ∀ kv ∈ ds, 0 ≤ kv.2) :
    (((ds.map (fun kv => (max 0 kv.2).toNat)).sum : ℕ) : ℤ)
      = (ds.map Prod.snd).sum := by
  induction ds with
  | nil => simp
  | cons d ds ih =>
    simp only [List.map_cons, List.sum_cons]
    have hd := h d (List.mem_cons_self d ds)
    have hih := ih (fun kv hkv => h kv (List.mem_cons_of_mem d hkv))
    push_cast at hih ⊢
    omega

theorem length_flatten_framesLen {α : Type} (fs : List (List α)) :
    (fs.flatten).length = framesLen fs := by
  unfold framesLen
  induction fs with
  | nil => rfl
  | cons f fs ih =>
    simp only [List.flatten_cons, List.length_append, List.map_cons,
      List.sum_cons, ih]

theorem framesLen_append {α : Type} (a b : List (List α)) :
    framesLen (a ++ b) = framesLen a + framesLen b := by
  unfold framesLen
  rw [List.map_append, List.sum_append]

theorem ne_nil_of_framesLen_pos {α : Type} {fs : List (List α)}
    (h : 0 < framesLen fs) : ¬ fs = [] := by
  intro hc
  rw [hc] at h
  simp [framesLen] at h

theorem lookupRows_nil_of_remTotal_zero {rem : List (String × List Row)}
    (h : remTotal rem = 0) (k : String) : lookupRows rem k = [] := by
  have := lookupRows_len_le_remTotal rem k
  rw [h] at this
  exact List.length_eq_zero.mp (Nat.le_zero.mp this)

theorem writeBack_fst : ∀ (rows : List Row) (ts : List String),
    (writeBack rows ts).map Prod.fst = rows := by
  intro rows
  induction rows with
  | nil => intro ts; cases ts <;> rfl
  | cons r rs ih =>
    intro ts
    cases ts with
    | nil => simpa [writeBack] using ih []
    | cons t ts' => simpa [writeBack] using ih ts'

theorem writeBack_snd : ∀ (rows : List Row) (ts : List String),
    ts.length ≤ rows.length →
    (writeBack rows ts).map Prod.snd
      = ts ++ List.replicate (rows.length - ts.length) "" := by
  intro rows
  induction rows with
  | nil =>
    intro ts hts
    have h0 : ts.length ≤ 0 := by simpa using hts
    have h1 : ts = [] := List.length_eq_zero.mp (Nat.le_zero.mp h0)
    subst h1
    rfl
  | cons r rs ih =>
    intro ts hts
    cases ts with
    | nil =>
      simp only [writeBack, List.map_cons, List.length_nil, List.length_cons,
        Nat.sub_zero, List.nil_append]
      rw [ih [] (by simp)]
      simp [List.replicate_succ]
    | cons t ts' =>
      simp only [writeBack, List.map_cons, List.length_cons, List.cons_append,
        Nat.succ_sub_succ]
      rw [ih ts' (by simpa using hts)]

/-! ### Theorems: per-caller behaviour of `assign_mix_aware` -/
/-! ### Theorems: per-caller behaviour of `assign_mix_aware` -/

theorem topup_drained (caller : String) (ks : List String)
    (st2 : List (String × List Row) × List (List (Row × String)) × ℤ)
    (hnd : ks.Nodup) (hkeys : st2.1.map Prod.fst = ks)
    (hpos : 0 < (sourceTopUp caller ks st2).2.2) :
    remTotal (sourceTopUp caller ks st2).1 = 0 := by
  apply remTotal_eq_zero_of_lookups
  · rw [topup_keys, hkeys]
    exact hnd
  · intro k hk
    rw [topup_keys, hkeys] at hk
    exact topup_empties caller ks st2 hnd hpos k hk

set_option maxHeartbeats 1600000 in
/-- One caller of `assign_mix_aware` takes exactly
`min per_caller_target remaining_supply` rows (desired pull, then unknown
top-up, then source top-up), all tagged with the caller's name, appended
as one frame; the per-source key layout is preserved and the remaining
supply shrinks by exactly the taken amount. -/
theorem callerStep_master (weights : List (String × ℚ)) (t : ℤ)
    (st : AssignSt) (caller : String)
    (ht : 1 ≤ t)
    (hne : ¬ weights = []) (hpos : ∀ kv ∈ weights, 0 < kv.2)
    (hsum : (weights.map Prod.snd).sum = 1)
    (hnd : (weights.map Prod.fst).Nodup)
    (hkeys : st.rem.map Prod.fst = weights.map Prod.fst) :
    (callerStep weights t st caller).rem.map Prod.fst = weights.map Prod.fst ∧
    (remTotal (callerStep weights t st caller).rem : ℤ)
        + (callerStep weights t st caller).unknown.length
      = ((remTotal st.rem : ℤ) + st.unknown.length)
        - min t ((remTotal st.rem : ℤ) + st.unknown.length) ∧
    ((0 : ℤ) < (remTotal st.rem : ℤ) + st.unknown.length →
      ∃ frame : List (Row × String),
        (callerStep weights t st caller).frames = st.frames ++ [frame] ∧
        (frame.length : ℤ)
          = min t ((remTotal st.rem : ℤ) + st.unknown.length) ∧
        ∀ pr ∈ frame, pr.2 = caller) ∧
    ((remTotal st.rem : ℤ) + st.unknown.length = 0 →
      (callerStep weights t st caller).frames = st.frames) := by
  have hdss := desired_sum t weights ht hne hpos hsum
  have hdsn := desired_nonneg t weights ht hpos
  have hcons := pull_conserve caller (desiredCounts t weights) st.rem []
  have hkeysF := pull_keys caller (desiredCounts t weights) st.rem []
  have hbound := pull_bound caller (desiredCounts t weights) st.rem []
  have hnames := pull_names caller (desiredCounts t weights) st.rem []
  have hSum := sum_max_toNat (desiredCounts t weights) hdsn
  rw [hdss] at hSum
  simp only [callerStep, pullPhase]
  set F := (desiredCounts t weights).foldl (pullStep caller) (st.rem, []) with hF
  simp only [framesLen, List.map_nil, List.sum_nil, Nat.add_zero,
    Nat.zero_add] at hcons hbound
  set G : ℤ := ((F.2.map List.length).sum : ℤ) with hGdef
  set S : ℤ := t - G with hSdef
  have hG0 : 0 ≤ G := by omega
  have hGt : G ≤ t := by omega
  have hGrem : G ≤ (remTotal st.rem : ℤ) := by omega
  have hkeysF' : F.1.map Prod.fst = weights.map Prod.fst := by
    rw [hkeysF, hkeys]
  by_cases hS : 0 < S
  · -- the caller is still short after the desired pull
    simp only [if_pos hS]
    by_cases hU : ¬ st.unknown = []
    · -- unknown bucket available
      simp only [if_pos hU]
      have haddne : ¬ (_take_first st.unknown S).1 = [] :=
        take_first_head_ne_nil hS (by simpa using hU)
      simp only [if_neg haddne]
      have haddlen : ((_take_first st.unknown S).1).length
          = min (max 0 S).toNat st.unknown.length := take_first_head_len _ _
      have haddsplit : ((_take_first st.unknown S).1).length
          + ((_take_first st.unknown S).2).length = st.unknown.length := by
        have h2 := congrArg List.length (take_first_append st.unknown S)
        simpa [List.length_append] using h2
      set A : ℤ := (((_take_first st.unknown S).1).length : ℤ) with hAdef
      have hA1 : 1 ≤ A := by
        have := List.length_pos.mpr haddne
        omega
      have hAS : A ≤ S := by
        rw [hAdef, haddlen]
        omega
      by_cases hS2 : 0 < S ∧ 0 < S - A
      · -- still short: source top-up runs
        simp only [if_pos hS2]
        have hAu : A = st.unknown.length := by
          rw [hAdef, haddlen]
          omega
        have htail : ((_take_first st.unknown S).2).length = 0 := by omega
        have htailnil : (_take_first st.unknown S).2 = [] :=
          List.length_eq_zero.mp htail
        set ks := weights.map Prod.fst with hks
        set P2 : List (List (Row × String)) :=
          F.2 ++ [((_take_first st.unknown S).1).map (fun r => (r, caller))]
          with hP2
        set st2 : List (String × List Row) × List (List (Row × String)) × ℤ :=
          (F.1, P2, S - A) with hst2
        set W := sourceTopUp caller ks st2 with hW
        have hst21 : st2.1 = F.1 := by rw [hst2]
        have hst221 : st2.2.1 = P2 := by rw [hst2]
        have hst222 : st2.2.2 = S - A := by rw [hst2]
        have hkeys2 : st2.1.map Prod.fst = ks := by
          rw [hst21, hkeysF', hks]
        have htc := topup_conserve caller ks st2
        have htk := topup_keys caller ks st2
        have htn := topup_names caller ks st2
        have htsh := topup_short caller ks st2
        have htnn := topup_short_nonneg caller ks st2 (by rw [hst222]; omega)
        rw [← hW] at htc htk htn htsh htnn
        simp only [hst2] at htc htsh
        have hP2len : framesLen P2 = (F.2.map List.length).sum
            + ((_take_first st.unknown S).1).length := by
          rw [hP2]
          simp [framesLen, framesLen_append]
        rw [hP2len] at htc htsh
        simp only [framesLen] at htc htsh
        set T : ℤ := ((W.2.1.map List.length).sum : ℤ) with hTdef
        have hshval : W.2.2 = t - T := by omega
        have hTlow : G + A ≤ T := by
          have h4 := topup_short_mono caller ks st2
          rw [← hW, hst222] at h4
          omega
        have hWne : ¬ W.2.1 = [] := by
          apply ne_nil_of_framesLen_pos
          simp only [framesLen]
          omega
        simp only [if_neg hWne]
        have hnn : 0 ≤ W.2.2 := htnn
        refine ⟨by rw [htk, hkeys2, hks], ?_, ?_, ?_⟩
        · -- remaining totals
          dsimp only
          rcases lt_or_le W.2.2 1 with hw0 | hw1
          · rw [min_eq_left (by omega)]
            rw [htailnil]
            simp only [List.length_nil]
            omega
          · have hzero := topup_drained caller ks st2 (hks ▸ hnd) hkeys2
              (by rw [← hW]; omega)
            rw [← hW] at hzero
            rw [min_eq_right (by omega)]
            rw [htailnil]
            simp only [List.length_nil]
            omega
        · -- the caller frame
          intro hRpos
          refine ⟨W.2.1.flatten, rfl, ?_, ?_⟩
          · rw [length_flatten_framesLen]
            simp only [framesLen]
            rcases lt_or_le W.2.2 1 with hw0 | hw1
            · rw [min_eq_left (by omega)]
              omega
            · have hzero := topup_drained caller ks st2 (hks ▸ hnd) hkeys2
                (by rw [← hW]; omega)
              rw [← hW] at hzero
              rw [min_eq_right (by omega)]
              omega
          · intro pr hpr
            rcases htn pr hpr with hmem | hc
            · simp only [hst2] at hmem
              rw [hP2] at hmem
              rw [List.flatten_append] at hmem
              rcases List.mem_append.mp hmem with h1 | h1
              · rcases hnames pr h1 with h2 | h2
                · simp at h2
                · exact h2
              · simp only [List.flatten_cons, List.flatten_nil,
                  List.append_nil] at h1
                rcases List.mem_map.mp h1 with ⟨r, _, hr⟩
                rw [← hr]
            · exact hc
        · -- supply cannot be zero here
          intro hR0
          exfalso
          omega
      · -- shortfall fully covered by the unknown bucket
        simp only [if_neg hS2]
        have hSA : S - A = 0 := by
          rcases not_and_or.mp hS2 with hc | hc
          · exact absurd hS hc
          · omega
        have hF2A : ¬ F.2 ++ [((_take_first st.unknown S).1).map
            (fun r => (r, caller))] = [] := by simp
        simp only [if_neg hF2A]
        have hmin : min t ((remTotal st.rem : ℤ) + st.unknown.length) = t := by
          rw [min_eq_left]
          omega
        refine ⟨hkeysF', ?_, ?_, ?_⟩
        · dsimp only
          rw [hmin]
          omega
        · intro hRpos
          refine ⟨(F.2 ++ [((_take_first st.unknown S).1).map
              (fun r => (r, caller))]).flatten, rfl, ?_, ?_⟩
          · rw [length_flatten_framesLen, hmin, framesLen_append]
            simp only [framesLen, List.map_cons, List.sum_cons,
              List.length_map, List.map_nil, List.sum_nil]
            omega
          · intro pr hpr
            rw [List.flatten_append] at hpr
            rcases List.mem_append.mp hpr with h1 | h1
            · rcases hnames pr h1 with h2 | h2
              · simp at h2
              · exact h2
            · simp only [List.flatten_cons, List.flatten_nil,
                List.append_nil] at h1
              rcases List.mem_map.mp h1 with ⟨r, _, hr⟩
              rw [← hr]
        · intro hR0
          exfalso
          omega
    · -- unknown bucket empty
      simp only [if_neg hU]
      have hUnil : st.unknown = [] := by simpa using hU
      have hS2 : 0 < S ∧ 0 < S := ⟨hS, hS⟩
      simp only [if_pos hS2]
      set ks := weights.map Prod.fst with hks
      set st2 : List (String × List Row) × List (List (Row × String)) × ℤ :=
        (F.1, F.2, S) with hst2
      set W := sourceTopUp caller ks st2 with hW
      have hst21 : st2.1 = F.1 := by rw [hst2]
      have hst221 : st2.2.1 = F.2 := by rw [hst2]
      have hst222 : st2.2.2 = S := by rw [hst2]
      have hkeys2 : st2.1.map Prod.fst = ks := by
        rw [hst21, hkeysF', hks]
      have htc := topup_conserve caller ks st2
      have htk := topup_keys caller ks st2
      have htn := topup_names caller ks st2
      have htsh := topup_short caller ks st2
      have htnn := topup_short_nonneg caller ks st2 (by rw [hst222]; omega)
      rw [← hW] at htc htk htn htsh htnn
      simp only [hst2] at htc htsh
      simp only [framesLen] at htc htsh
      set T : ℤ := ((W.2.1.map List.length).sum : ℤ) with hTdef
      have hshval : W.2.2 = t - T := by omega
      have hnn : 0 ≤ W.2.2 := htnn
      by_cases hWne : W.2.1 = []
      · -- nothing taken at all: the whole supply was empty
        simp only [if_pos hWne]
        have hT0 : T = 0 := by
          rw [hTdef, hWne]
          simp
        have hzero := topup_drained caller ks st2 (hks ▸ hnd) hkeys2
          (by rw [← hW]; omega)
        rw [← hW] at hzero
        have hGz : G = 0 := by omega
        have hRz : remTotal st.rem = 0 := by omega
        refine ⟨by rw [htk, hkeys2, hks], ?_, ?_, ?_⟩
        · dsimp only
          rw [hUnil]
          simp only [List.length_nil]
          rw [min_eq_right (by omega)]
          omega
        · intro hRpos
          exfalso
          rw [hUnil] at hRpos
          simp only [List.length_nil] at hRpos
          omega
        · intro hR0
          trivial
      · simp only [if_neg hWne]
        refine ⟨by rw [htk, hkeys2, hks], ?_, ?_, ?_⟩
        · dsimp only
          rcases lt_or_le W.2.2 1 with hw0 | hw1
          · rw [hUnil]
            simp only [List.length_nil]
            rw [min_eq_left (by omega)]
            omega
          · have hzero := topup_drained caller ks st2 (hks ▸ hnd) hkeys2
              (by rw [← hW]; omega)
            rw [← hW] at hzero
            rw [hUnil]
            simp only [List.length_nil]
            rw [min_eq_right (by omega)]
            omega
        · intro hRpos
          refine ⟨W.2.1.flatten, rfl, ?_, ?_⟩
          · rw [length_flatten_framesLen]
            simp only [framesLen]
            rcases lt_or_le W.2.2 1 with hw0 | hw1
            · rw [min_eq_left (by omega)]
              omega
            · have hzero := topup_drained caller ks st2 (hks ▸ hnd) hkeys2
                (by rw [← hW]; omega)
              rw [← hW] at hzero
              rw [hUnil] at hRpos ⊢
              simp only [List.length_nil] at hRpos ⊢
              rw [min_eq_right (by omega)]
              omega
          · intro pr hpr
            rcases htn pr hpr with hmem | hc
            · simp only [hst2] at hmem
              rcases hnames pr hmem with h2 | h2
              · simp at h2
              · exact h2
            · exact hc
        · intro hR0
          exfalso
          have hRT : remTotal st.rem = 0 := by
            rw [hUnil] at hR0
            simp only [List.length_nil] at hR0
            omega
          have hall : ∀ k ∈ st.rem.map Prod.fst, lookupRows st.rem k = [] :=
            fun k _ => lookupRows_nil_of_remTotal_zero hRT k
          have hFeq := pull_all_empty caller (desiredCounts t weights) st.rem hall
          rw [← hF] at hFeq
          have hallW : ∀ k ∈ ks, lookupRows st2.1 k = [] := by
            intro k _
            rw [hst21, hFeq]
            exact lookupRows_nil_of_remTotal_zero hRT k
          have hWeq := topup_all_empty caller ks st2 hallW
          rw [← hW] at hWeq
          rw [hWeq] at hWne
          simp only [hst2] at hWne
          rw [hFeq] at hWne
          exact hWne rfl
  · -- the desired pull already met the target
    simp only [if_neg hS]
    have hScond : ¬ (0 < S ∧ 0 < S) := fun hc => hS hc.1
    simp only [if_neg hScond]
    have hGt' : G = t := by omega
    have hF2ne : ¬ F.2 = [] := by
      apply ne_nil_of_framesLen_pos
      simp only [framesLen]
      omega
    simp only [if_neg hF2ne]
    have hmin : min t ((remTotal st.rem : ℤ) + st.unknown.length) = t := by
      rw [min_eq_left]
      omega
    refine ⟨hkeysF', ?_, ?_, ?_⟩
    · dsimp only
      rw [hmin]
      omega
    · intro hRpos
      refine ⟨F.2.flatten, rfl, ?_, ?_⟩
      · rw [length_flatten_framesLen, hmin]
        simp only [framesLen]
        omega
      · intro pr hpr
        rcases hnames pr hpr with h2 | h2
        · simp at h2
        · exact h2
    · intro hR0
      exfalso
      omega

/-! ### Theorems: the caller fold of `assign_mix_aware` -/

theorem assign_fold_general (weights : List (String × ℚ)) (t : ℤ)
    (ht : 1 ≤ t) (hne : ¬ weights = []) (hpos : ∀ kv ∈ weights, 0 < kv.2)
    (hsum : (weights.map Prod.snd).sum = 1)
    (hnd : (weights.map Prod.fst).Nodup) :
    ∀ (cs : List String) (st : AssignSt),
    st.rem.map Prod.fst = weights.map Prod.fst →
    ∃ fs : List (List (Row × String)),
      (cs.foldl (callerStep weights t) st).frames = st.frames ++ fs ∧
      ((remTotal (cs.foldl (callerStep weights t) st).rem : ℤ)
          + (cs.foldl (callerStep weights t) st).unknown.length)
          + framesLen fs
        = (remTotal st.rem : ℤ) + st.unknown.length ∧
      (∀ pr ∈ fs.flatten, pr.2 ∈ cs) := by
  intro cs
  induction cs with
  | nil =>
    intro st hk
    exact ⟨[], by simp, by simp [framesLen], by simp⟩
  | cons c cs ih =>
    intro st hk
    have hm := callerStep_master weights t st c ht hne hpos hsum hnd hk
    obtain ⟨hm1, hm2, hm3, hm4⟩ := hm
    rcases ih (callerStep weights t st c) hm1 with ⟨fs', hf1, hf2, hf3⟩
    simp only [List.foldl_cons] at *
    by_cases hR : (0 : ℤ) < (remTotal st.rem : ℤ) + st.unknown.length
    · rcases hm3 hR with ⟨frame, hfr1, hfr2, hfr3⟩
      refine ⟨[frame] ++ fs', ?_, ?_, ?_⟩
      · rw [hf1, hfr1, List.append_assoc]
      · rw [framesLen_append] at *
        simp only [framesLen, List.map_cons, List.sum_cons, List.map_nil,
          List.sum_nil] at *
        have hminle : min t ((remTotal st.rem : ℤ) + st.unknown.length)
            ≤ (remTotal st.rem : ℤ) + st.unknown.length := min_le_right _ _
        omega
      · intro pr hpr
        rw [List.flatten_append] at hpr
        rcases List.mem_append.mp hpr with h1 | h1
        · simp only [List.flatten_cons, List.flatten_nil,
            List.append_nil] at h1
          rw [hfr3 pr h1]
          exact List.mem_cons_self c cs
        · exact List.mem_cons_of_mem c (hf3 pr h1)
    · have hR0 : (remTotal st.rem : ℤ) + st.unknown.length = 0 := by
        have h1 : (0 : ℤ) ≤ (remTotal st.rem : ℤ) := by positivity
        have h2 : (0 : ℤ) ≤ (st.unknown.length : ℤ) := by positivity
        omega
      refine ⟨fs', ?_, ?_, ?_⟩
      · rw [hf1, hm4 hR0]
      · have hmin0 : min t ((remTotal st.rem : ℤ) + st.unknown.length) = 0 := by
          rw [hR0]
          rw [min_eq_right (by omega)]
        omega
      · intro pr hpr
        exact List.mem_cons_of_mem c (hf3 pr hpr)

theorem assign_fold_exact (weights : List (String × ℚ)) (t : ℤ)
    (ht : 1 ≤ t) (hne : ¬ weights = []) (hpos : ∀ kv ∈ weights, 0 < kv.2)
    (hsum : (weights.map Prod.snd).sum = 1)
    (hnd : (weights.map Prod.fst).Nodup) :
    ∀ (cs : List String) (st : AssignSt),
    st.rem.map Prod.fst = weights.map Prod.fst →
    (cs.length : ℤ) * t ≤ (remTotal st.rem : ℤ) + st.unknown.length →
    ∃ fs : List (List (Row × String)),
      (cs.foldl (callerStep weights t) st).frames = st.frames ++ fs ∧
      List.Forall₂ (fun (f : List (Row × String)) (c : String) =>
        (f.length : ℤ) = t ∧ ∀ pr ∈ f, pr.2 = c) fs cs := by
  intro cs
  induction cs with
  | nil =>
    intro st hk _
    exact ⟨[], by simp, List.Forall₂.nil⟩
  | cons c cs ih =>
    intro st hk hsupply
    have hcs0 : (0 : ℤ) ≤ (cs.length : ℤ) * t :=
      mul_nonneg (by positivity) (by omega)
    have hexp : ((c :: cs).length : ℤ) * t = (cs.length : ℤ) * t + t := by
      simp only [List.length_cons]
      push_cast
      ring
    rw [hexp] at hsupply
    have hts : t ≤ (remTotal st.rem : ℤ) + st.unknown.length := by linarith
    have hm := callerStep_master weights t st c ht hne hpos hsum hnd hk
    obtain ⟨hm1, hm2, hm3, _⟩ := hm
    have hR : (0 : ℤ) < (remTotal st.rem : ℤ) + st.unknown.length := by omega
    rcases hm3 hR with ⟨frame, hfr1, hfr2, hfr3⟩
    have hmin : min t ((remTotal st.rem : ℤ) + st.unknown.length) = t :=
      min_eq_left hts
    rw [hmin] at hfr2 hm2
    have hsupply' : (cs.length : ℤ) * t
        ≤ (remTotal (callerStep weights t st c).rem : ℤ)
          + (callerStep weights t st c).unknown.length := by
      rw [hm2]
      linarith
    rcases ih (callerStep weights t st c) hm1 hsupply' with ⟨fs', hf1, hf2⟩
    simp only [List.foldl_cons]
    refine ⟨[frame] ++ fs', ?_, ?_⟩
    · rw [hf1, hfr1, List.append_assoc]
    · exact List.Forall₂.cons ⟨hfr2, hfr3⟩ hf2

theorem countP_flatten_zero {t : ℤ} {fs : List (List (Row × String))}
    {cs : List String}
    (hfa : List.Forall₂ (fun (f : List (Row × String)) (c : String) =>
      (f.length : ℤ) = t ∧ ∀ pr ∈ f, pr.2 = c) fs cs)
    {c : String} (hc : ¬ c ∈ cs) :
    fs.flatten.countP (fun pr => pr.2 = c) = 0 := by
  revert hc
  induction hfa with
  | nil => intro _; rfl
  | cons hfc hrest ih =>
    rename_i f c' fs' cs'
    intro hc
    simp only [List.flatten_cons, List.countP_append]
    have h1 : f.countP (fun pr => pr.2 = c) = 0 := by
      rw [List.countP_eq_zero]
      intro pr hpr
      simp only [decide_eq_true_eq]
      rw [hfc.2 pr hpr]
      intro hcc
      exact hc (List.mem_cons.mpr (Or.inl hcc.symm))
    rw [h1, ih (fun hcc => hc (List.mem_cons_of_mem c' hcc))]

theorem countP_flatten_exact {t : ℤ} {fs : List (List (Row × String))}
    {cs : List String}
    (hfa : List.Forall₂ (fun (f : List (Row × String)) (c : String) =>
      (f.length : ℤ) = t ∧ ∀ pr ∈ f, pr.2 = c) fs cs)
    (hnd : cs.Nodup) :
    ∀ c ∈ cs, ((fs.flatten.countP (fun pr => pr.2 = c)) : ℤ) = t := by
  revert hnd
  induction hfa with
  | nil => intro _ c hc; simp at hc
  | cons hfc hrest ih =>
    rename_i f c' fs' cs'
    intro hnd c hc
    have hflen := hfc.1
    simp only [List.flatten_cons, List.countP_append]
    rcases List.mem_cons.mp hc with hcc | hcc
    · subst hcc
      have h1 : f.countP (fun pr => pr.2 = c) = f.length := by
        rw [List.countP_eq_length]
        intro pr hpr
        simp only [decide_eq_true_eq]
        exact hfc.2 pr hpr
      have h2 : fs'.flatten.countP (fun pr => pr.2 = c) = 0 :=
        countP_flatten_zero hrest (List.nodup_cons.mp hnd).1
      rw [h1, h2]
      push_cast
      omega
    · have hcne : ¬ c = c' := by
        intro hcc'
        exact (List.nodup_cons.mp hnd).1 (hcc' ▸ hcc)
      have h1 : f.countP (fun pr => pr.2 = c) = 0 := by
        rw [List.countP_eq_zero]
        intro pr hpr
        simp only [decide_eq_true_eq]
        rw [hfc.2 pr hpr]
        exact fun hcc' => hcne hcc'.symm
      rw [h1]
      have := ih (List.nodup_cons.mp hnd).2 c hcc
      push_cast at this ⊢
      omega

theorem sum_filter_cons (r : Row) (rows : List Row) :
    ∀ ks : List String, ks.Nodup →
    (ks.map (fun s => ((r :: rows).filter
        (fun x => x.source_key = s)).length)).sum
      = (ks.map (fun s => (rows.filter
          (fun x => x.source_key = s)).length)).sum
        + (if r.source_key ∈ ks then 1 else 0) := by
  intro ks
  induction ks with
  | nil => intro _; simp
  | cons k ks ihk =>
    intro hnd
    simp only [List.map_cons, List.sum_cons]
    have hih := ihk (List.nodup_cons.mp hnd).2
    by_cases hk : r.source_key = k
    · rw [List.filter_cons_of_pos (by simpa using hk)]
      have hnotin : ¬ r.source_key ∈ ks := by
        intro hc
        exact (List.nodup_cons.mp hnd).1 (hk ▸ hc)
      rw [hih, if_neg hnotin, if_pos (List.mem_cons.mpr (Or.inl hk))]
      simp only [List.length_cons]
      omega
    · rw [List.filter_cons_of_neg (by simpa using hk)]
      rw [hih]
      by_cases hks : r.source_key ∈ ks
      · rw [if_pos hks, if_pos (List.mem_cons.mpr (Or.inr hks))]
        omega
      · rw [if_neg hks,
          if_neg (fun hc => (List.mem_cons.mp hc).elim hk hks)]
        omega

theorem partition_sources (ks : List String) (hnd : ks.Nodup) :
    ∀ rows : List Row,
    ((ks.map (fun s => (rows.filter (fun r => r.source_key = s)).length)).sum
      + (rows.filter (fun r => ¬ r.source_key ∈ ks)).length) = rows.length := by
  intro rows
  induction rows with
  | nil => simp
  | cons r rows ih =>
    rw [sum_filter_cons r rows ks hnd]
    by_cases hr : r.source_key ∈ ks
    · rw [if_pos hr, List.filter_cons_of_neg (by simpa using hr)]
      simp only [List.length_cons]
      omega
    · rw [if_neg hr, List.filter_cons_of_pos (by simpa using hr)]
      simp only [List.length_cons]
      omega

theorem assignInit_keys (rows : List Row) (weights : List (String × ℚ)) :
    (assignInit rows weights).rem.map Prod.fst = weights.map Prod.fst := by
  simp [assignInit, List.map_map, Function.comp]

theorem assignInit_supply (rows : List Row) (weights : List (String × ℚ))
    (hnd : (weights.map Prod.fst).Nodup) :
    remTotal (assignInit rows weights).rem
      + (assignInit rows weights).unknown.length = rows.length := by
  have hpart := partition_sources (weights.map Prod.fst) hnd rows
  simp only [assignInit, remTotal, List.map_map]
  simpa [Function.comp] using hpart

theorem framesLen_of_forall₂ {t : ℤ} {fs : List (List (Row × String))}
    {cs : List String}
    (hfa : List.Forall₂ (fun (f : List (Row × String)) (c : String) =>
      (f.length : ℤ) = t ∧ ∀ pr ∈ f, pr.2 = c) fs cs) :
    (framesLen fs : ℤ) = (cs.length : ℤ) * t := by
  induction hfa with
  | nil => simp [framesLen]
  | cons hfc hrest ih =>
    rename_i f c' fs' cs'
    have h1 := hfc.1
    simp only [framesLen, List.map_cons, List.sum_cons,
      List.length_cons] at *
    push_cast at *
    linarith

theorem countP_writeBack : ∀ (rows : List Row) (ts : List String)
    (c : String), ¬ c = "" → ts.length ≤ rows.length →
    (writeBack rows ts).countP (fun pr => pr.2 = c)
      = ts.countP (fun s => s = c) := by
  intro rows
  induction rows with
  | nil =>
    intro ts c _ hlen
    have h0 : ts = [] := by
      cases ts with
      | nil => rfl
      | cons s ts' => simp at hlen
    rw [h0]
    rfl
  | cons r rs ih =>
    intro ts c hc hlen
    cases ts with
    | nil =>
      simp only [writeBack, List.countP_cons]
      rw [ih [] c hc (by simp)]
      have h0 : ¬ ("" = c) := fun h => hc h.symm
      simp [h0]
    | cons s ts' =>
      simp only [writeBack, List.countP_cons]
      rw [ih ts' c hc (by simpa using hlen)]

theorem writeBack_get_snd : ∀ (rows : List Row) (ts : List String),
    (∀ s ∈ ts, ¬ s = "") →
    ∀ i (hi : i < (writeBack rows ts).length),
      (¬ ((writeBack rows ts)[i]).2 = "") ↔ i < ts.length := by
  intro rows
  induction rows with
  | nil =>
    intro ts _ i hi
    exact absurd hi (by cases ts <;> simp [writeBack])
  | cons r rs ih =>
    intro ts hts i hi
    cases ts with
    | nil =>
      cases i with
      | zero => simp [writeBack]
      | succ j =>
        have hj : j < (writeBack rs []).length := by
          simpa [writeBack] using hi
        have hrec := ih [] (by simp) j hj
        simpa [writeBack] using hrec
    | cons s ts' =>
      cases i with
      | zero =>
        simp only [writeBack, List.getElem_cons_zero, List.length_cons]
        simp only [Nat.zero_lt_succ, iff_true]
        exact hts s (List.mem_cons_self s ts')
      | succ j =>
        have hj : j < (writeBack rs ts').length := by
          simpa [writeBack] using hi
        have hrec := ih ts'
          (fun x hx => hts x (List.mem_cons_of_mem s hx)) j hj
        simpa [writeBack] using hrec

theorem mem_filter_trim_ne_blank {c : String} {cs : List String}
    (h : c ∈ cs.filter (fun x => callerNonBlank x)) : ¬ c = "" := by
  intro h0
  have h2 := (List.mem_filter.mp h).2
  rw [h0] at h2
  exact absurd h2 (by decide)

theorem assign_mix_aware_eq_writeBack (rows : List Row)
    (callers0 : List String) (t : ℤ) (mix : List (String × ℚ))
    (hrows : ¬ rows = [])
    (hc2 : ¬ ((callers0.filter (fun c => callerNonBlank c)) = [] ∨ t ≤ 0)) :
    assign_mix_aware rows callers0 t mix
      = writeBack rows (assignedTelesales rows callers0 t mix) := by
  simp only [assign_mix_aware, assignedTelesales, assignInit,
    if_neg hrows, if_neg hc2]

/-! ### Theorems: C1 and C9 (`assign_mix_aware`) -/

/-- C1 (counterexample to the claimed statement): on a three-row
PC-only pool with two callers and a per-caller target of 2,
`assign_mix_aware` does NOT give every caller the same number of rows
(caller "a" receives 2 rows, caller "b" receives 1), because the code
never caps the per-caller target at `floor(total_available / k)`: each
caller in turn takes up to the full target from whatever supply
remains. -/
theorem C1_counterexample :
    ¬ ((assign_mix_aware c1Rows ["a", "b"] 2 []).countP
          (fun pr => pr.2 = "a")
        = (assign_mix_aware c1Rows ["a", "b"] 2 []).countP
          (fun pr => pr.2 = "b")) := by
  have h0 : (["a", "b"].filter (fun c => callerNonBlank c)) = ["a", "b"] := by
    decide
  have h1 : _normalize_mix []
      = [(SOURCE_PC, (1 : ℚ)/2), (SOURCE_MOBILE, (1 : ℚ)/2)] := by
    norm_num [_normalize_mix]
  have h2 : desiredCounts 2
      [(SOURCE_PC, (1 : ℚ)/2), (SOURCE_MOBILE, (1 : ℚ)/2)]
      = [(SOURCE_PC, (1 : ℤ)), (SOURCE_MOBILE, (1 : ℤ))] := by
    norm_num [desiredCounts, sortDescQ, insertDescQ, incKey]
  simp only [assign_mix_aware, h0, h1, List.foldl_cons, List.foldl_nil,
    callerStep, h2]
  decide

/-- C1 (amended): whenever the pool is large enough for every caller to
receive a full target (`k * per_caller_target ≤ total_available`, with
`k ≥ 1` distinct non-blank callers and `per_caller_target ≥ 1`),
`assign_mix_aware` gives every caller exactly `per_caller_target` rows —
on this domain the spec's formula `min(target, floor(total/k)) = target`
agrees with the code; outside it the claimed cap does not exist in the
code and equality fails (see the counterexample). -/
theorem C1_equal_assignment (rows : List Row) (callers0 : List String)
    (t : ℤ) (mix : List (String × ℚ))
    (ht : 1 ≤ t)
    (hmixnd : (mix.map Prod.fst).Nodup)
    (hcalnd : (callers0.filter (fun c => callerNonBlank c)).Nodup)
    (hcal : ¬ callers0.filter (fun c => callerNonBlank c) = [])
    (hsupply : ((callers0.filter (fun c => callerNonBlank c)).length : ℤ) * t
        ≤ (rows.length : ℤ)) :
    ∀ c ∈ callers0.filter (fun c => callerNonBlank c),
      ((assign_mix_aware rows callers0 t mix).countP
        (fun pr => pr.2 = c) : ℤ) = t := by
  intro c hc
  have hk1 : 1 ≤ ((callers0.filter
      (fun c => callerNonBlank c)).length : ℤ) := by
    have hp : 0 < (callers0.filter (fun c => callerNonBlank c)).length :=
      List.length_pos.mpr hcal
    omega
  have hrows : ¬ rows = [] := by
    intro hnil
    rw [hnil] at hsupply
    simp only [List.length_nil, Nat.cast_zero] at hsupply
    nlinarith
  have hc2 : ¬ ((callers0.filter (fun c => callerNonBlank c)) = []
      ∨ t ≤ 0) := by
    push_neg
    exact ⟨hcal, by omega⟩
  have hred := assign_mix_aware_eq_writeBack rows callers0 t mix hrows hc2
  have hwne := normalize_mix_ne_nil mix
  have hwpos := normalize_mix_pos mix
  have hwsum := normalize_mix_sum mix
  have hwnd := normalize_mix_keys_nodup mix hmixnd
  have hsup := assignInit_supply rows (_normalize_mix mix) hwnd
  have hsupZ : ((callers0.filter (fun c => callerNonBlank c)).length : ℤ) * t
      ≤ (remTotal (assignInit rows (_normalize_mix mix)).rem : ℤ)
        + (assignInit rows (_normalize_mix mix)).unknown.length := by
    have hcast : (remTotal (assignInit rows (_normalize_mix mix)).rem : ℤ)
        + ((assignInit rows (_normalize_mix mix)).unknown.length : ℤ)
        = (rows.length : ℤ) := by
      exact_mod_cast hsup
    rw [hcast]
    exact hsupply
  obtain ⟨fs, hfs1, hfs2⟩ := assign_fold_exact (_normalize_mix mix) t ht
    hwne hwpos hwsum hwnd (callers0.filter (fun c => callerNonBlank c))
    (assignInit rows (_normalize_mix mix))
    (assignInit_keys rows (_normalize_mix mix)) hsupZ
  have hz : (assignInit rows (_normalize_mix mix)).frames = [] := rfl
  rw [hz, List.nil_append] at hfs1
  have hts_def : assignedTelesales rows callers0 t mix
      = (List.foldl (callerStep (_normalize_mix mix) t)
          (assignInit rows (_normalize_mix mix))
          (callers0.filter (fun c => callerNonBlank c))).frames.flatten.map
          Prod.snd := by
    simp only [assignedTelesales]
  have hcne : ¬ c = "" := mem_filter_trim_ne_blank hc
  have hflen : ((fs.flatten.map Prod.snd).length : ℤ)
      = ((callers0.filter (fun c => callerNonBlank c)).length : ℤ) * t := by
    rw [List.length_map, length_flatten_framesLen]
    exact framesLen_of_forall₂ hfs2
  have hlen2 : (fs.flatten.map Prod.snd).length ≤ rows.length := by
    have hZ : ((fs.flatten.map Prod.snd).length : ℤ)
        ≤ (rows.length : ℤ) := by
      rw [hflen]
      exact hsupply
    exact_mod_cast hZ
  rw [hred, hts_def, hfs1]
  rw [countP_writeBack rows _ c hcne hlen2]
  rw [List.countP_map]
  exact countP_flatten_exact hfs2 hcalnd c hc

/-- Closed witness for C1: three PC rows, the single caller "a" and
target 2 satisfy the supply hypothesis (1·2 ≤ 3), and caller "a"
receives exactly 2 rows. -/
theorem C1_equal_assignment_witness :
    ((assign_mix_aware c1Rows ["a"] 2 []).countP
      (fun pr => pr.2 = "a") : ℤ) = 2 :=
  C1_equal_assignment c1Rows ["a"] 2 [] (by decide) (by decide)
    (by decide) (by decide) (by decide) "a" (by decide)

/-- C9: for a non-empty pool, a non-empty cleaned caller list and a
positive target, `assign_mix_aware` returns the pool rows unchanged and
in order, writes the taken callers' names positionally into the first
`M` output rows (`M` = number of rows taken across all callers, which
never exceeds the pool size), every written name is one of the cleaned
callers, all later rows carry the blank telesale value, and a row's
telesale is non-blank exactly when its position is below `M`. -/
theorem C9_positional_writeback (rows : List Row) (callers0 : List String)
    (t : ℤ) (mix : List (String × ℚ))
    (hrows : ¬ rows = [])
    (hcal : ¬ callers0.filter (fun c => callerNonBlank c) = [])
    (ht : 1 ≤ t)
    (hmixnd : (mix.map Prod.fst).Nodup) :
    (assignedTelesales rows callers0 t mix).length ≤ rows.length ∧
    (assign_mix_aware rows callers0 t mix).map Prod.fst = rows ∧
    (assign_mix_aware rows callers0 t mix).map Prod.snd
      = assignedTelesales rows callers0 t mix
        ++ List.replicate
          (rows.length - (assignedTelesales rows callers0 t mix).length)
          "" ∧
    (∀ s ∈ assignedTelesales rows callers0 t mix,
      s ∈ callers0.filter (fun c => callerNonBlank c)) ∧
    ∀ i (hi : i < (assign_mix_aware rows callers0 t mix).length),
      (¬ ((assign_mix_aware rows callers0 t mix)[i]).2 = "")
        ↔ i < (assignedTelesales rows callers0 t mix).length := by
  have hc2 : ¬ ((callers0.filter (fun c => callerNonBlank c)) = []
      ∨ t ≤ 0) := by
    push_neg
    exact ⟨hcal, by omega⟩
  have hred := assign_mix_aware_eq_writeBack rows callers0 t mix hrows hc2
  have hwne := normalize_mix_ne_nil mix
  have hwpos := normalize_mix_pos mix
  have hwsum := normalize_mix_sum mix
  have hwnd := normalize_mix_keys_nodup mix hmixnd
  have hsup := assignInit_supply rows (_normalize_mix mix) hwnd
  obtain ⟨fs, hfs1, hfs2, hfs3⟩ := assign_fold_general (_normalize_mix mix)
    t ht hwne hwpos hwsum hwnd (callers0.filter (fun c => callerNonBlank c))
    (assignInit rows (_normalize_mix mix))
    (assignInit_keys rows (_normalize_mix mix))
  have hz : (assignInit rows (_normalize_mix mix)).frames = [] := rfl
  rw [hz, List.nil_append] at hfs1
  have hts_def : assignedTelesales rows callers0 t mix
      = (List.foldl (callerStep (_normalize_mix mix) t)
          (assignInit rows (_normalize_mix mix))
          (callers0.filter (fun c => callerNonBlank c))).frames.flatten.map
          Prod.snd := by
    simp only [assignedTelesales]
  have hlen_ts : (assignedTelesales rows callers0 t mix).length
      = framesLen fs := by
    rw [hts_def, hfs1, List.length_map, length_flatten_framesLen]
  have hts_le : (assignedTelesales rows callers0 t mix).length
      ≤ rows.length := by
    rw [hlen_ts]
    omega
  have hnames : ∀ s ∈ assignedTelesales rows callers0 t mix,
      s ∈ callers0.filter (fun c => callerNonBlank c) := by
    intro s hs
    rw [hts_def, hfs1] at hs
    obtain ⟨pr, hpr, hpr2⟩ := List.mem_map.mp hs
    rw [← hpr2]
    exact hfs3 pr hpr
  have hts_ne : ∀ s ∈ assignedTelesales rows callers0 t mix, ¬ s = "" :=
    fun s hs => mem_filter_trim_ne_blank (hnames s hs)
  refine ⟨hts_le, ?_, ?_, hnames, ?_⟩
  · rw [hred]
    exact writeBack_fst rows _
  · rw [hred]
    exact writeBack_snd rows _ hts_le
  · intro i hi
    simp only [hred] at hi ⊢
    exact writeBack_get_snd rows (assignedTelesales rows callers0 t mix)
      hts_ne i hi

/-- Closed witness for C9: the three-row PC pool with the single caller
"a", target 1 and an empty mix map; the first pool row is the complete
assigned prefix. -/
theorem C9_positional_writeback_witness :
    (assign_mix_aware c1Rows ["a"] 1 []).map Prod.fst = c1Rows :=
  (C9_positional_writeback c1Rows ["a"] 1 [] (by decide) (by decide)
    (by decide) (by decide)).2.1

/-! ### Theorems: C8 (`apply_filters`) -/

theorem zip_map_filter {α : Type} (l : List α) (f : α → Bool) :
    ((l.zip (l.map f)).filter (fun pb => pb.2)).map Prod.fst
      = l.filter f := by
  induction l with
  | nil => rfl
  | cons x xs ih =>
    simp only [List.map_cons, List.zip_cons_cons, List.filter_cons]
    by_cases hf : f x = true <;> simp [hf, ih]

set_option maxHeartbeats 1600000 in
theorem rowKeep_eq_passes (hasResult : Bool) (comp : List CRow)
    (hasAssignDate : Bool) (bl : List BRow) (redeemed : List String)
    (today : String) (dur : Bool) (n : ℤ)
    (dans dinv dni dno dred : Bool) (r : PRow) :
    rowKeep hasResult comp hasAssignDate bl redeemed today
        dur n dans dinv dni dno dred r
      = decide (passesEnabledRules hasResult comp hasAssignDate bl
          redeemed today dur n dans dinv dni dno dred r) := by
  by_cases h1 : bl = [] <;>
  by_cases h2 : comp = [] <;>
  by_cases h3 : todayKeys comp hasAssignDate today = [] <;>
  by_cases h4 : dur = true ∧ ¬ unreachRows comp = [] <;>
  by_cases h5 : dans = true ∧ ¬ answeredKeys comp = [] <;>
  by_cases h6 : dni = true ∧ ¬ notInterestedKeys comp = [] <;>
  by_cases h7 : hasResult = true <;>
  by_cases h8 : dinv = true <;>
  by_cases h8b : dno = true <;>
  by_cases h9 : dred = true ∧ ¬ redeemed = [] <;>
  simp [rowKeep, passesEnabledRules, h1, h2, h3, h4, h5, h6, h7, h8,
    h8b, h9, Bool.and_assoc]

/-- C8: `apply_filters` is total over all combinations of present and
absent optional inputs (an absent table or set is the empty one, which
is what `_ensure_df` / `set(... or [])` produce), and the output equals
the pool filtered by the conjunction of the enabled rules — a row
survives iff it passes every rule whose toggle is on and whose input is
present, so an absent optional input merely deactivates its rules — and
the output is a sublist of the pool: surviving rows keep their relative
order (the embedding is positional, i.e. re-indexed from zero). -/
theorem C8_apply_filters (pool : List PRow) (hasResult : Bool)
    (comp : List CRow) (hasAssignDate : Bool) (bl : List BRow)
    (redeemed : List String) (today : String) (dur : Bool) (n : ℤ)
    (dans dinv dni dno dred : Bool) :
    apply_filters pool hasResult comp hasAssignDate bl redeemed today
        dur n dans dinv dni dno dred
      = pool.filter (fun r => decide (passesEnabledRules hasResult comp
          hasAssignDate bl redeemed today dur n dans dinv dni dno
          dred r)) ∧
    (apply_filters pool hasResult comp hasAssignDate bl redeemed today
        dur n dans dinv dni dno dred).Sublist pool := by
  have hEq : apply_filters pool hasResult comp hasAssignDate bl redeemed
      today dur n dans dinv dni dno dred
      = pool.filter (fun r => decide (passesEnabledRules hasResult comp
          hasAssignDate bl redeemed today dur n dans dinv dni dno
          dred r)) := by
    by_cases hpool : pool = []
    · rw [hpool]
      rfl
    · rw [apply_filters, if_neg hpool]
      rw [zip_map_filter]
      apply List.filter_congr
      intro r _
      exact rowKeep_eq_passes hasResult comp hasAssignDate bl redeemed
        today dur n dans dinv dni dno dred r
  refine ⟨hEq, ?_⟩
  rw [hEq]
  exact List.filter_sublist pool

end Telesales
